import Mathlib

/-!
Verification of the Storage-Master repository.

The repository holds two artifacts:

* `src/main.js` — PaintMasterJS, a canvas painting library.  Its color
  conversion helpers (`rgbToHex` / `hexToRgb`), its `HistoryManager`
  (undo/redo stacks) and its `LayerManager.removeLayer` are embedded and
  verified below (claims about the painting code).

* `src/README.md` — the documentation of "LocalStorage Master" (LSM), a
  durable key-value store over a string-keyed backing store.  The LSM
  engine source itself is not present in `src/`; the engine is therefore
  modelled from the specification (`spec.md`): codec pipeline, chunker,
  metadata, journal, lock, secondary indexes, eviction, and the
  set/get/remove facade protocols of §4.11.  Definitions modelled this
  way carry a doc comment starting with `Modelled from the spec:`.
-/

namespace PaintMaster

/-- JS `clamp(value, min, max) = Math.max(min, Math.min(max, value))`
from `src/main.js` (utility section), at integer type. -/
def jsClamp (v lo hi : Int) : Int := max lo (min hi v)

/-- Hexadecimal digit character, lowercase, as produced by JS
`Number.prototype.toString(16)` for a digit value `n < 16`. -/
def hexChar (n : Nat) : Char := if n < 10 then Char.ofNat (48 + n) else Char.ofNat (87 + n)

/-- `v.toString(16)` for `v ≤ 255`: at most two hexadecimal digits
(the source only ever calls this on values clamped into `[0, 255]`). -/
def toStr16 (n : Nat) : List Char :=
  if n < 16 then [hexChar n] else [hexChar (n / 16), hexChar (n % 16)]

/-- JS `.padStart(2, "0")` for a string of length at most 2. -/
def padStart2 (l : List Char) : List Char := if l.length < 2 then '0' :: l else l

/-- The inner `toHex` of `rgbToHex` (src/main.js:195-198):
`clamp(v | 0, 0, 255).toString(16).padStart(2, "0")`.  `v | 0` is the
identity on integers already in int32 range, and the clamp is modelled
over `Int` exactly as in the source. -/
def toHex (v : Int) : List Char := padStart2 (toStr16 (jsClamp v 0 255).toNat)

/-- `rgbToHex` from src/main.js:194-200: produces `#rrggbb`. -/
def rgbToHex (r g b : Int) : String := String.mk ('#' :: (toHex r ++ toHex g ++ toHex b))

/-- JS `String.prototype.replace("#","")`: removes the first occurrence
of the character. -/
def removeFirst (c : Char) : List Char → List Char
  | [] => []
  | x :: xs => if x = c then xs else x :: removeFirst c xs

/-- Value of one hexadecimal digit character, as accepted by JS
`parseInt(·, 16)` (digits, lowercase and uppercase letters). -/
def hexVal? (c : Char) : Option Nat :=
  if 48 ≤ c.toNat ∧ c.toNat ≤ 57 then some (c.toNat - 48)
  else if 97 ≤ c.toNat ∧ c.toNat ≤ 102 then some (c.toNat - 87)
  else if 65 ≤ c.toNat ∧ c.toNat ≤ 70 then some (c.toNat - 55)
  else none

/-- `parseInt(h, 16)`: folds leading hexadecimal digits, stopping at the
first non-digit (our inputs consist of digits only). -/
def parseHex : Nat → List Char → Nat
  | acc, [] => acc
  | acc, c :: cs =>
    match hexVal? c with
    | some d => parseHex (16 * acc + d) cs
    | none => acc

/-- `hexToRgb` from src/main.js:205-216: strips `#`, doubles a 3-digit
short form, parses as base 16, and extracts the three bytes.  The JS
shifts `(bigint >> 16) & 255` etc. operate on a value below `2^24` and
are rendered as division/remainder on `Nat`. -/
def hexToRgb (s : String) : Nat × Nat × Nat :=
  let h := removeFirst '#' s.data
  let h := if h.length = 3 then (h.map (fun c => [c, c])).flatten else h
  let bigint := parseHex 0 h
  (bigint / 65536 % 256, bigint / 256 % 256, bigint % 256)

lemma hexVal?_hexChar {d : Nat} (h : d < 16) : hexVal? (hexChar d) = some d := by
  interval_cases d <;> decide

lemma jsClamp_of_le {v : Int} (h0 : 0 ≤ v) (h1 : v ≤ 255) : jsClamp v 0 255 = v := by
  simp only [jsClamp]
  omega

lemma toHex_eq {v : Nat} (h : v ≤ 255) :
    toHex (v : Int) = [hexChar (v / 16), hexChar (v % 16)] := by
  have hc : jsClamp (v : Int) 0 255 = v := jsClamp_of_le (by positivity) (by exact_mod_cast h)
  simp only [toHex, hc, Int.toNat_natCast, toStr16, padStart2]
  by_cases hv : v < 16
  · have : v / 16 = 0 := Nat.div_eq_of_lt hv
    have : hexChar (v / 16) = '0' := by rw [this]; decide
    simp [hv, this]
    congr 1
    omega
  · simp [hv]

lemma parseHex_toHex_pair {acc v : Nat} (h : v ≤ 255) :
    parseHex acc [hexChar (v / 16), hexChar (v % 16)] = acc * 256 + v := by
  have h1 : v / 16 < 16 := by omega
  have h2 : v % 16 < 16 := by omega
  simp only [parseHex, hexVal?_hexChar h1, hexVal?_hexChar h2]
  omega

/-- C8: for every triple of integers `r, g, b` each in `[0, 255]`,
`hexToRgb (rgbToHex r g b)` returns exactly `(r, g, b)`: encoding a color
to its 6-digit hex string and decoding it back is the identity
(src/main.js:194-216). -/
theorem claim_C8_hex_roundtrip {r g b : Nat} (hr : r ≤ 255) (hg : g ≤ 255) (hb : b ≤ 255) :
    hexToRgb (rgbToHex (r : Int) (g : Int) (b : Int)) = (r, g, b) := by
  have hlen : ∀ v : Nat, v ≤ 255 → (toHex (v : Int)).length = 2 := by
    intro v hv; rw [toHex_eq hv]; rfl
  simp only [hexToRgb, rgbToHex, toHex_eq hr, toHex_eq hg, toHex_eq hb]
  have hrm : removeFirst '#'
      ('#' :: ([hexChar (r / 16), hexChar (r % 16)] ++ [hexChar (g / 16), hexChar (g % 16)] ++
        [hexChar (b / 16), hexChar (b % 16)])) =
      [hexChar (r / 16), hexChar (r % 16)] ++ [hexChar (g / 16), hexChar (g % 16)] ++
        [hexChar (b / 16), hexChar (b % 16)] := by
    simp [removeFirst]
  rw [hrm]
  have hlen6 : ([hexChar (r / 16), hexChar (r % 16)] ++ [hexChar (g / 16), hexChar (g % 16)] ++
      [hexChar (b / 16), hexChar (b % 16)]).length = 6 := by rfl
  rw [if_neg (by rw [hlen6]; omega)]
  have hparse : parseHex 0
      ([hexChar (r / 16), hexChar (r % 16)] ++ [hexChar (g / 16), hexChar (g % 16)] ++
        [hexChar (b / 16), hexChar (b % 16)]) = r * 65536 + g * 256 + b := by
    have h1 : r / 16 < 16 := by omega
    have h2 : r % 16 < 16 := by omega
    have h3 : g / 16 < 16 := by omega
    have h4 : g % 16 < 16 := by omega
    have h5 : b / 16 < 16 := by omega
    have h6 : b % 16 < 16 := by omega
    simp only [List.cons_append, List.nil_append, parseHex,
      hexVal?_hexChar h1, hexVal?_hexChar h2, hexVal?_hexChar h3,
      hexVal?_hexChar h4, hexVal?_hexChar h5, hexVal?_hexChar h6]
    omega
  rw [hparse]
  refine Prod.ext ?_ (Prod.ext ?_ ?_) <;> simp <;> omega

/-- Witness for C8 at the concrete color (16, 128, 255). -/
theorem claim_C8_witness :
    (16 : Nat) ≤ 255 ∧ hexToRgb (rgbToHex 16 128 255) = (16, 128, 255) :=
  ⟨by decide, claim_C8_hex_roundtrip (by decide) (by decide) (by decide)⟩

/-! ### HistoryManager (src/main.js:802-836)

Commands are kept abstract: `push`/`undo`/`redo` only manipulate the two
stacks (the `do()`/`undo()` callbacks are side effects on the canvas and
irrelevant to the stack discipline).  JS array order is kept: index 0 is
the oldest element, `push`/`pop` act on the tail, `shift` drops the head. -/

structure History (α : Type) where
  undoStack : List α
  redoStack : List α
  limit : Nat
deriving DecidableEq

namespace History

/-- `push(command)` (src/main.js:809-816): append to the undo stack,
drop the oldest entry when the stack exceeds `limit`, clear redo. -/
def push (h : History α) (c : α) : History α :=
  let u := h.undoStack ++ [c]
  let u := if h.limit < u.length then u.tail else u
  { h with undoStack := u, redoStack := [] }

/-- `undo()` (src/main.js:818-823): pop the undo stack; if empty, do
nothing; else move the command to the redo stack. -/
def undo (h : History α) : History α :=
  match h.undoStack.getLast? with
  | none => h
  | some c => { h with undoStack := h.undoStack.dropLast, redoStack := h.redoStack ++ [c] }

/-- `redo()` (src/main.js:825-830): pop the redo stack; if empty, do
nothing; else move the command back to the undo stack. -/
def redo (h : History α) : History α :=
  match h.redoStack.getLast? with
  | none => h
  | some c => { h with redoStack := h.redoStack.dropLast, undoStack := h.undoStack ++ [c] }

end History

/-- C9: for every `HistoryManager` with limit `L ≥ 1` (state satisfying
the reachable-state invariant `|undo| + |redo| ≤ L`): after any
`push(command)` the redo stack is empty and the undo stack holds at most
`L` commands; `undo` on a non-empty undo stack moves exactly the top
command to the redo stack, and `redo` moves the top redo command back to
the undo stack; `undo` and `redo` on empty stacks leave both stacks
unchanged (src/main.js:802-836). -/
theorem claim_C9_history_stacks {α : Type} (h : History α) (c : α)
    (hL : 1 ≤ h.limit) (hinv : h.undoStack.length + h.redoStack.length ≤ h.limit) :
    ((h.push c).redoStack = [] ∧ (h.push c).undoStack.length ≤ h.limit) ∧
    (∀ (l : List α) (c' : α), h.undoStack = l ++ [c'] →
      h.undo = ⟨l, h.redoStack ++ [c'], h.limit⟩) ∧
    (∀ (l : List α) (c' : α), h.redoStack = l ++ [c'] →
      h.redo = ⟨h.undoStack ++ [c'], l, h.limit⟩) ∧
    (h.undoStack = [] → h.undo = h) ∧
    (h.redoStack = [] → h.redo = h) := by
  refine ⟨⟨rfl, ?_⟩, ?_, ?_, ?_, ?_⟩
  · simp only [History.push]
    split <;> simp_all <;> omega
  · intro l c' hu
    simp [History.undo, hu]
  · intro l c' hr
    simp [History.redo, hr]
  · intro hu
    simp [History.undo, hu]
  · intro hr
    simp [History.redo, hr]

/-- Witness for C9 at a concrete two-command history with limit 2. -/
theorem claim_C9_witness :
    ((1 : Nat) ≤ 2 ∧ (2 : Nat) + 0 ≤ 2) ∧
    ((History.push ⟨[0, 1], [], 2⟩ (7 : Nat)).redoStack = [] ∧
      (History.push ⟨[0, 1], [], 2⟩ (7 : Nat)).undoStack.length ≤ 2) :=
  ⟨⟨by decide, by decide⟩,
    (claim_C9_history_stacks ⟨[0, 1], [], 2⟩ 7 (by decide) (by decide)).1⟩

/-! ### LayerManager.removeLayer (src/main.js:720-725) -/

/-- The slice of `LayerManager` state that `removeLayer` reads and
writes: the layer stack and the active index (a JS number, possibly out
of range, hence `Int`). -/
structure LayerMgr (α : Type) where
  layers : List α
  activeLayerIndex : Int
deriving DecidableEq

/-- `removeLayer(index)` (src/main.js:720-725): out-of-range indices
return `null` and change nothing; otherwise `splice(index, 1)` removes
the layer and `activeLayerIndex` is set to
`clamp(activeLayerIndex, 0, layers.length - 1)` over the shrunk list. -/
def LayerMgr.removeLayer (lm : LayerMgr α) (index : Int) : Option α × LayerMgr α :=
  if index < 0 ∨ (lm.layers.length : Int) ≤ index then (none, lm)
  else
    let i := index.toNat
    let layers' := lm.layers.take i ++ lm.layers.drop (i + 1)
    (lm.layers[i]?,
      { layers := layers',
        activeLayerIndex := jsClamp lm.activeLayerIndex 0 ((layers'.length : Int) - 1) })

/-- Counterexample to C10 as stated: removing the only layer of a
one-layer manager leaves `activeLayerIndex = 0`, which does not lie
within the bounds of the now-empty layer list. -/
theorem claim_C10_counterexample :
    (LayerMgr.removeLayer ⟨[()], 0⟩ 0).2.layers = [] ∧
    (LayerMgr.removeLayer ⟨[()], 0⟩ 0).2.activeLayerIndex = 0 ∧
    ¬ ((LayerMgr.removeLayer ⟨[()], 0⟩ 0).2.activeLayerIndex <
        ((LayerMgr.removeLayer ⟨[()], 0⟩ 0).2.layers.length : Int)) := by
  refine ⟨rfl, rfl, ?_⟩
  decide

/-- C10 (amended): for every index outside `[0, layers.length - 1]`,
`removeLayer` returns `null` and leaves the layer list and
`activeLayerIndex` unchanged; for every in-range index it removes
exactly that one layer and sets `activeLayerIndex` to
`clamp(activeLayerIndex, 0, newLength - 1)` — when the remaining list is
non-empty this lies within its bounds, and when the list becomes empty
the index is set to 0 (out of bounds) (src/main.js:720-725). -/
theorem claim_C10_removeLayer {α : Type} (lm : LayerMgr α) (index : Int) :
    ((index < 0 ∨ (lm.layers.length : Int) ≤ index) →
      lm.removeLayer index = (none, lm)) ∧
    (0 ≤ index → index < (lm.layers.length : Int) →
      (lm.removeLayer index).2.layers =
        lm.layers.take index.toNat ++ lm.layers.drop (index.toNat + 1) ∧
      (lm.removeLayer index).1 = lm.layers[index.toNat]? ∧
      (lm.removeLayer index).2.layers.length = lm.layers.length - 1 ∧
      ((lm.removeLayer index).2.layers ≠ [] →
        0 ≤ (lm.removeLayer index).2.activeLayerIndex ∧
        (lm.removeLayer index).2.activeLayerIndex <
          ((lm.removeLayer index).2.layers.length : Int)) ∧
      ((lm.removeLayer index).2.layers = [] →
        (lm.removeLayer index).2.activeLayerIndex = 0)) := by
  constructor
  · intro hout
    simp [LayerMgr.removeLayer, hout]
  · intro h0 hlt
    have hcond : ¬ (index < 0 ∨ (lm.layers.length : Int) ≤ index) := by omega
    have hidx : index.toNat < lm.layers.length := by omega
    have heq : lm.removeLayer index =
        (lm.layers[index.toNat]?,
          { layers := lm.layers.take index.toNat ++ lm.layers.drop (index.toNat + 1),
            activeLayerIndex := jsClamp lm.activeLayerIndex 0
              (((lm.layers.take index.toNat ++
                  lm.layers.drop (index.toNat + 1)).length : Int) - 1) }) := by
      simp only [LayerMgr.removeLayer, hcond, if_false]
    rw [heq]
    have hlen : (lm.layers.take index.toNat ++ lm.layers.drop (index.toNat + 1)).length =
        lm.layers.length - 1 := by
      simp only [List.length_append, List.length_take, List.length_drop]
      omega
    refine ⟨rfl, rfl, hlen, ?_, ?_⟩
    · intro hne
      have : 0 < (lm.layers.take index.toNat ++ lm.layers.drop (index.toNat + 1)).length :=
        List.length_pos.mpr hne
      simp only [jsClamp]
      constructor <;> omega
    · intro he
      have h0l : lm.layers.take index.toNat ++ lm.layers.drop (index.toNat + 1) = ([] : List α) := he
      show jsClamp lm.activeLayerIndex 0
          (((lm.layers.take index.toNat ++ lm.layers.drop (index.toNat + 1)).length : Int) - 1) = 0
      rw [h0l]
      simp only [jsClamp, List.length_nil]
      omega

/-- Witness for C10 at a concrete three-layer manager, removing index 1. -/
theorem claim_C10_witness :
    ((0 : Int) ≤ 1 ∧ (1 : Int) < (([10, 20, 30] : List Nat).length : Int)) ∧
    (LayerMgr.removeLayer ⟨[10, 20, 30], 2⟩ 1).2.layers = [10, 30] ∧
    (LayerMgr.removeLayer ⟨[10, 20, 30], 2⟩ 1).1 = some 20 := by
  constructor
  · decide
  constructor
  · exact ((claim_C10_removeLayer ⟨[10, 20, 30], 2⟩ 1).2 (by decide) (by decide)).1
  · exact ((claim_C10_removeLayer ⟨[10, 20, 30], 2⟩ 1).2 (by decide) (by decide)).2.1

end PaintMaster

namespace LSM

/-! ## The LocalStorage Master engine, modelled from the spec

The LSM engine source (`main.js` of LocalStorage Master) is not under
`src/`; only its README documentation is.  Everything in this namespace
is therefore modelled from `spec.md`, as faithfully as its words allow:
the chunker (§4.3), the codec pipeline (§4.2), the metadata model (§3),
the journal (§4.5), the lock (§4.6), the index registry (§4.7), the
eviction engine (§4.8) and the facade protocols of §4.11. -/

/-- Modelled from the spec (§4.3): fuel-bounded worker for `split`.
`fuel ≥ l.length` suffices when the shard size is at least 1. -/
def chunksOfAux (n : Nat) : Nat → List α → List (List α)
  | 0, _ => []
  | _, [] => []
  | fuel + 1, l => l.take n :: chunksOfAux n fuel (l.drop n)

/-- Modelled from the spec (§4.3): `split(bytes, shardSize)` partitions
into slices of `shardSize` octets, the last possibly short.  The base64
encoding of each slice is a black-box reversible byte-to-string codec
(spec §4.2/§4.3) and is inert for every claimed property, so slices are
kept as raw sequences. -/
def chunksOf (n : Nat) (l : List α) : List (List α) := chunksOfAux n l.length l

lemma chunksOfAux_nil {n fuel : Nat} : chunksOfAux n fuel ([] : List α) = [] := by
  cases fuel <;> rfl

lemma chunksOfAux_flatten {n : Nat} (hn : 1 ≤ n) :
    ∀ (fuel : Nat) (l : List α), l.length ≤ fuel → (chunksOfAux n fuel l).flatten = l := by
  intro fuel
  induction fuel with
  | zero =>
    intro l hl
    have : l = [] := List.eq_nil_of_length_eq_zero (by omega)
    subst this
    rfl
  | succ fuel ih =>
    intro l hl
    match l with
    | [] => rfl
    | x :: xs =>
      have hrec : (List.drop n (x :: xs)).length ≤ fuel := by
        simp only [List.length_drop, List.length_cons]
        simp only [List.length_cons] at hl
        omega
      simp only [chunksOfAux, List.flatten_cons, ih _ hrec, List.take_append_drop]

lemma chunksOfAux_length {n : Nat} (hn : 1 ≤ n) :
    ∀ (fuel : Nat) (l : List α), l.length ≤ fuel →
      (chunksOfAux n fuel l).length = (l.length + n - 1) / n := by
  have key : ∀ m, 1 ≤ m → (m + n - 1) / n = (m - 1) / n + 1 := by
    intro m hm
    have h : m + n - 1 = (m - 1) + n := by omega
    rw [h, Nat.add_div_right _ (by omega)]
  intro fuel
  induction fuel with
  | zero =>
    intro l hl
    have : l = [] := List.eq_nil_of_length_eq_zero (by omega)
    subst this
    show ([] : List (List α)).length = (([] : List α).length + n - 1) / n
    simp only [List.length_nil, Nat.zero_add]
    exact (Nat.div_eq_of_lt (by omega)).symm
  | succ fuel ih =>
    intro l hl
    match l with
    | [] =>
      show ([] : List (List α)).length = (([] : List α).length + n - 1) / n
      simp only [List.length_nil, Nat.zero_add]
      exact (Nat.div_eq_of_lt (by omega)).symm
    | x :: xs =>
      have hm : 1 ≤ (x :: xs).length := by simp
      have hrec : (List.drop n (x :: xs)).length ≤ fuel := by
        simp only [List.length_drop, List.length_cons]
        simp only [List.length_cons] at hl
        omega
      have hstep : chunksOfAux n (fuel + 1) (x :: xs) =
          List.take n (x :: xs) :: chunksOfAux n fuel (List.drop n (x :: xs)) := rfl
      rw [hstep, List.length_cons, ih _ hrec, List.length_drop, key _ hm]
      by_cases hc : (x :: xs).length ≤ n
      · have h1 : (x :: xs).length - n = 0 := by omega
        rw [h1, Nat.div_eq_of_lt (show 0 + n - 1 < n by omega),
          Nat.div_eq_of_lt (show (x :: xs).length - 1 < n by omega)]
      · rw [key _ (show 1 ≤ (x :: xs).length - n by omega)]
        have h2 : (x :: xs).length - 1 = ((x :: xs).length - n - 1) + n := by omega
        rw [h2, Nat.add_div_right _ (by omega)]

lemma chunksOfAux_mem_length {n : Nat} :
    ∀ (fuel : Nat) (l : List α), ∀ c ∈ chunksOfAux n fuel l, c.length ≤ n := by
  intro fuel
  induction fuel with
  | zero => intro l c hc; simp [chunksOfAux] at hc
  | succ fuel ih =>
    intro l c hc
    match l with
    | [] => simp [chunksOfAux] at hc
    | x :: xs =>
      simp only [chunksOfAux, List.mem_cons] at hc
      rcases hc with hc | hc
      · subst hc
        simp [List.length_take]
      · exact ih _ _ hc

lemma chunksOfAux_dropLast_length {n : Nat} (hn : 1 ≤ n) :
    ∀ (fuel : Nat) (l : List α), ∀ c ∈ (chunksOfAux n fuel l).dropLast, c.length = n := by
  intro fuel
  induction fuel with
  | zero => intro l c hc; simp [chunksOfAux] at hc
  | succ fuel ih =>
    intro l c hc
    match l with
    | [] => simp [chunksOfAux] at hc
    | x :: xs =>
      simp only [chunksOfAux] at hc
      by_cases hrest : chunksOfAux n fuel (List.drop n (x :: xs)) = []
      · rw [hrest] at hc
        simp at hc
      · rw [List.dropLast_cons_of_ne_nil hrest, List.mem_cons] at hc
        rcases hc with hc | hc
        · subst hc
          have hlong : n < (x :: xs).length := by
            by_contra hle
            have hdrop : List.drop n (x :: xs) = [] := by
              apply List.drop_eq_nil_of_le
              omega
            rw [hdrop, chunksOfAux_nil] at hrest
            exact hrest rfl
          simp only [List.length_take, List.length_cons]
          simp only [List.length_cons] at hlong
          omega
        · exact ih _ _ hc

/-- C5: for every byte sequence of length N and every `shardSize ≥ 1`,
`split` partitions the bytes into exactly `⌈N / shardSize⌉` slices, each
of `shardSize` octets except a possibly shorter last slice, and `join`
(in-order concatenation, spec §4.3) applied to those slices returns the
original byte sequence. -/
theorem claim_C5_chunker {n : Nat} (hn : 1 ≤ n) (bytes : List Nat) :
    (chunksOf n bytes).length = (bytes.length + n - 1) / n ∧
    (chunksOf n bytes).flatten = bytes ∧
    (∀ c ∈ (chunksOf n bytes).dropLast, c.length = n) ∧
    (∀ c ∈ chunksOf n bytes, c.length ≤ n) :=
  ⟨chunksOfAux_length hn _ bytes le_rfl,
    chunksOfAux_flatten hn _ bytes le_rfl,
    chunksOfAux_dropLast_length hn _ bytes,
    chunksOfAux_mem_length _ bytes⟩

/-- Witness for C5: five bytes at shard size 2 give `⌈5/2⌉ = 3` slices
that join back to the input. -/
theorem claim_C5_witness :
    (1 : Nat) ≤ 2 ∧
    (chunksOf 2 [10, 20, 30, 40, 50]).length = (5 + 2 - 1) / 2 ∧
    (chunksOf 2 [10, 20, 30, 40, 50]).flatten = [10, 20, 30, 40, 50] :=
  ⟨by decide,
    (claim_C5_chunker (by decide) [10, 20, 30, 40, 50]).1,
    (claim_C5_chunker (by decide) [10, 20, 30, 40, 50]).2.1⟩

/-! ### Data model (spec §3, §6) -/

/-- Modelled from the spec (§6, key layout): the deterministically
constructed BackingStore keys of one namespace.  The spec renders each
key as a string under the `<prefix>:<namespace>` base (see
`RKey.renderLen`); keys are kept structured here, which models the
layout's intent that distinct roles occupy distinct keys. -/
inductive RKey where
  | marker (userKey : String)
  | meta (userKey : String)
  | chunk (userKey : String) (i : Nat)
  | index (indexName : String)
  | journal
  | lock
  | enckey
deriving DecidableEq

/-- Modelled from the spec (§3): the per-item metadata record
(created-at, updated-at, ttl, expires-at, compressed and encrypted
flags, chunk count, total byte size, LRU timestamp, LFU counter, index
references, schema version). -/
structure Meta where
  created : Nat
  updated : Nat
  ttl : Option Nat
  expiresAt : Option Nat
  compressed : Bool
  encrypted : Bool
  chunks : Nat
  size : Nat
  lru : Nat
  lfu : Nat
  indexKeys : List String
  schemaVersion : Nat
deriving DecidableEq

/-- Modelled from the spec (§3): journal record kinds. -/
inductive JKind where
  | setBegin
  | setEnd
  | setRollback
  | removeBegin
  | removeEnd
  | removeRollback
deriving DecidableEq

/-- Modelled from the spec (§3): a journal record carries the kind, the
user key, a timestamp, and (for SET_BEGIN) the metadata snapshot. -/
structure JRec where
  kind : JKind
  key : String
  ts : Nat
  snapshot : Option Meta
deriving DecidableEq

/-- Modelled from the spec (§3, §6): the stored JSON documents, kept
structured (chunk payloads as raw slices of the encoded string; marker
`{chunks, metaRef}`; metadata; index record `fieldValue → key list`;
journal array; lock `{ownerId, expiresAt}`). -/
inductive RVal where
  | str (s : String)
  | markerV (chunks : Nat) (metaRef : RKey)
  | metaV (m : Meta)
  | indexV (buckets : List (String × List String))
  | journalV (recs : List JRec)
  | lockV (ownerId : String) (expiresAt : Nat)
deriving DecidableEq

/-- Modelled from the spec (§4.1): the BackingStore restricted to one
namespace — a string-keyed store kept in traversal (insertion) order. -/
abbrev EStore := List (RKey × RVal)

/-- Modelled from the spec (§7): the error taxonomy kinds surfaced by
mutations (`StorageFull` from a rejected write, `CryptoFail`, or any
other host fault, represented by a code). -/
inductive Err where
  | storageFull
  | cryptoFail
  | other (code : Nat)
deriving DecidableEq

/-- BackingStore `get(key)`: first entry with the key, if any. -/
def alGet : EStore → RKey → Option RVal
  | [], _ => none
  | (k', v) :: t, k => if k' = k then some v else alGet t k

/-- BackingStore `put(key, value)`: replace in place, else append (the
host store keeps a stable traversal order). -/
def alUpd : EStore → RKey → RVal → EStore
  | [], k, v => [(k, v)]
  | (k', v') :: t, k, v => if k' = k then (k, v) :: t else (k', v') :: alUpd t k v

/-- BackingStore `delete(key)`. -/
def alDel : EStore → RKey → EStore
  | [], _ => []
  | (k', v') :: t, k => if k' = k then alDel t k else (k', v') :: alDel t k

lemma alGet_upd_self (st : EStore) (k : RKey) (v : RVal) : alGet (alUpd st k v) k = some v := by
  induction st with
  | nil => simp [alGet, alUpd]
  | cons e t ih =>
    obtain ⟨k', v'⟩ := e
    by_cases h : k' = k <;> simp [alGet, alUpd, h, ih]

lemma alGet_upd_ne (st : EStore) {k k' : RKey} (v : RVal) (h : k' ≠ k) :
    alGet (alUpd st k v) k' = alGet st k' := by
  induction st with
  | nil => simp [alGet, alUpd, Ne.symm h]
  | cons e t ih =>
    obtain ⟨k'', v''⟩ := e
    by_cases h2 : k'' = k
    · subst h2
      simp [alGet, alUpd, Ne.symm h]
    · by_cases h3 : k'' = k' <;> simp [alGet, alUpd, h2, h3, h, ih]

lemma alGet_del_self (st : EStore) (k : RKey) : alGet (alDel st k) k = none := by
  induction st with
  | nil => simp [alGet, alDel]
  | cons e t ih =>
    obtain ⟨k', v'⟩ := e
    by_cases h : k' = k <;> simp [alGet, alDel, h, ih]

lemma alGet_del_ne (st : EStore) {k k' : RKey} (h : k' ≠ k) :
    alGet (alDel st k) k' = alGet st k' := by
  induction st with
  | nil => simp [alGet, alDel]
  | cons e t ih =>
    obtain ⟨k'', v''⟩ := e
    by_cases h2 : k'' = k
    · subst h2
      simp [alGet, alDel, Ne.symm h, ih]
    · by_cases h3 : k'' = k' <;> simp [alGet, alDel, h2, h3, h, ih]

/-! ### Codec pipeline (spec §4.2) -/

/-- Modelled from the spec (§4.2): the two black-box string codecs — the
black-box reversible compression codec and the AEAD encryption — as engine
parameters.  Claims quantify over any pair satisfying the reversibility
the spec postulates. -/
structure Codec where
  comp : String → String
  decomp : String → String
  enc : String → String
  dec : String → String

/-- Modelled from the spec (§4.2): `encode` — compress when requested,
then encrypt when requested (`JSON-stringify → compress → encrypt`; the
stringify stage lives in the value-level wrapper `setValue`). -/
def encode (cd : Codec) (compress encrypt : Bool) (s : String) : String :=
  let s1 := if compress then cd.comp s else s
  if encrypt then cd.enc s1 else s1

/-- Modelled from the spec (§4.2): `decode` reverses `encode` exactly —
decrypt first, then decompress. -/
def decode (cd : Codec) (compressed encrypted : Bool) (s : String) : String :=
  let s1 := if encrypted then cd.dec s else s
  if compressed then cd.decomp s1 else s1

/-- A codec whose black-box stages are reversible, as the spec
postulates (`decode reverses exactly`, §4.2). -/
def Codec.Reversible (cd : Codec) : Prop :=
  (∀ s, cd.decomp (cd.comp s) = s) ∧ (∀ s, cd.dec (cd.enc s) = s)

lemma decode_encode {cd : Codec} (hc : cd.Reversible) (compress encrypt : Bool) (s : String) :
    decode cd compress encrypt (encode cd compress encrypt s) = s := by
  obtain ⟨h1, h2⟩ := hc
  cases compress <;> cases encrypt <;> simp [encode, decode, h1, h2]

/-- Modelled from the spec (§6 defaults, §4.8): the namespace
configuration the claims depend on.  `pfxLen` is the length of the
`<prefix>:<namespace>` base used when rendering key strings. -/
structure Config where
  shardSize : Nat
  softLimit : Nat
  lru : Bool
  schemaVersion : Nat
  pfxLen : Nat
deriving DecidableEq

/-! ### Journal (spec §4.5) -/

/-- Current journal contents: the JSON array stored at the journal key
(empty when absent or malformed). -/
def journalRecs (st : EStore) : List JRec :=
  match alGet st RKey.journal with
  | some (RVal.journalV rs) => rs
  | _ => []

/-- Modelled from the spec (§4.5): `append(record)` — read-modify-write
of the single journal key. -/
def journalAppend (st : EStore) (r : JRec) : EStore :=
  alUpd st RKey.journal (RVal.journalV (journalRecs st ++ [r]))

lemma journalAppend_get_other (st : EStore) (r : JRec) {k : RKey} (h : k ≠ RKey.journal) :
    alGet (journalAppend st r) k = alGet st k :=
  alGet_upd_ne st _ h

lemma journalRecs_append (st : EStore) (r : JRec) :
    journalRecs (journalAppend st r) = journalRecs st ++ [r] := by
  simp [journalRecs, journalAppend, alGet_upd_self]

/-! ### Lock (spec §4.6) -/

/-- Modelled from the spec (§4.6): the write half of one acquisition
attempt — if the record is absent or stale (`expiresAt < now`), write
`{ownerId, expiresAt = now + lease}` with a 2000 ms lease. -/
def acquireStep (owner : String) (now : Nat) (st : EStore) : EStore :=
  match alGet st RKey.lock with
  | some (RVal.lockV _ e) =>
    if e < now then alUpd st RKey.lock (RVal.lockV owner (now + 2000)) else st
  | _ => alUpd st RKey.lock (RVal.lockV owner (now + 2000))

/-- Modelled from the spec (§4.6): lease-based acquisition.  Per
attempt: read, conditionally claim (`acquireStep`), re-read; ownership
equal to self means success.  Exhausted attempts return `false` — a
`LockUnavailable` error is never raised. -/
def acquire (owner : String) (now : Nat) : Nat → EStore → Bool × EStore
  | 0, st => (false, st)
  | attempts + 1, st =>
    let st' := acquireStep owner now st
    match alGet st' RKey.lock with
    | some (RVal.lockV o _) =>
      if o = owner then (true, st') else acquire owner now attempts st'
    | _ => acquire owner now attempts st'

/-- Modelled from the spec (§4.6): `release()` deletes the record only
if it still belongs to the caller. -/
def release (st : EStore) (owner : String) : EStore :=
  match alGet st RKey.lock with
  | some (RVal.lockV o _) => if o = owner then alDel st RKey.lock else st
  | _ => st

lemma acquireStep_get_other (owner : String) (now : Nat) (st : EStore)
    {k : RKey} (h : k ≠ RKey.lock) :
    alGet (acquireStep owner now st) k = alGet st k := by
  unfold acquireStep
  rcases hl : alGet st RKey.lock with _ | v
  · exact alGet_upd_ne st _ h
  · cases v <;> try exact alGet_upd_ne st _ h
    case lockV o e =>
      show alGet (if e < now then alUpd st RKey.lock (RVal.lockV owner (now + 2000)) else st) k =
        alGet st k
      by_cases he : e < now
      · rw [if_pos he]
        exact alGet_upd_ne st _ h
      · rw [if_neg he]

lemma acquire_get_other (owner : String) (now : Nat) :
    ∀ (attempts : Nat) (st : EStore) {k : RKey}, k ≠ RKey.lock →
      alGet (acquire owner now attempts st).2 k = alGet st k := by
  intro attempts
  induction attempts with
  | zero => intro st k h; rfl
  | succ n ih =>
    intro st k h
    have hstep : alGet (acquireStep owner now st) k = alGet st k :=
      acquireStep_get_other _ _ _ h
    simp only [acquire]
    rcases hl : alGet (acquireStep owner now st) RKey.lock with _ | v
    · rw [ih _ h, hstep]
    · cases v
      case lockV o e =>
        show alGet (if o = owner then (true, acquireStep owner now st)
          else acquire owner now n (acquireStep owner now st)).2 k = alGet st k
        by_cases ho : o = owner
        · rw [if_pos ho]
          exact hstep
        · rw [if_neg ho, ih _ h, hstep]
      all_goals rw [ih _ h, hstep]

lemma release_get_other (st : EStore) (owner : String) {k : RKey} (h : k ≠ RKey.lock) :
    alGet (release st owner) k = alGet st k := by
  unfold release
  rcases hl : alGet st RKey.lock with _ | v
  · rfl
  · cases v <;> try rfl
    case lockV o e =>
      show alGet (if o = owner then alDel st RKey.lock else st) k = alGet st k
      by_cases ho : o = owner
      · rw [if_pos ho]
        exact alGet_del_ne st h
      · rw [if_neg ho]

/-! ### Index registry (spec §4.7) -/

/-- Bucket lookup inside one index record: the ordered key sequence for
a field value (empty when the bucket does not exist). -/
def bucketGet (bs : List (String × List String)) (v : String) : List String :=
  match bs with
  | [] => []
  | (v', l) :: t => if v' = v then l else bucketGet t v

/-- Replace (first occurrence) or append a bucket. -/
def bucketSet (bs : List (String × List String)) (v : String) (l : List String) :
    List (String × List String) :=
  match bs with
  | [] => [(v, l)]
  | (v', l') :: t => if v' = v then (v, l) :: t else (v', l') :: bucketSet t v l

lemma bucketGet_set_self (bs : List (String × List String)) (v : String) (l : List String) :
    bucketGet (bucketSet bs v l) v = l := by
  induction bs with
  | nil => simp [bucketGet, bucketSet]
  | cons e t ih =>
    obtain ⟨v', l'⟩ := e
    by_cases h : v' = v <;> simp [bucketGet, bucketSet, h, ih]

lemma bucketGet_set_ne (bs : List (String × List String)) {v v' : String} (l : List String)
    (h : v' ≠ v) : bucketGet (bucketSet bs v l) v' = bucketGet bs v' := by
  induction bs with
  | nil => simp [bucketGet, bucketSet, Ne.symm h]
  | cons e t ih =>
    obtain ⟨v'', l''⟩ := e
    by_cases h2 : v'' = v
    · subst h2
      simp [bucketGet, bucketSet, Ne.symm h]
    · by_cases h3 : v'' = v' <;> simp [bucketGet, bucketSet, h2, h3, h, ih]

/-- The whole index record for an index name (empty when absent). -/
def indexBuckets (st : EStore) (name : String) : List (String × List String) :=
  match alGet st (RKey.index name) with
  | some (RVal.indexV bs) => bs
  | _ => []

/-- Modelled from the spec (§4.7): `query(indexName, fieldValue)` — the
ordered user-key sequence of one bucket. -/
def queryIndex (st : EStore) (name fieldValue : String) : List String :=
  bucketGet (indexBuckets st name) fieldValue

/-- Modelled from the spec (§4.7): `ensure(indexName, fieldValue,
userKey)` appends the key to the bucket if absent (read-modify-write of
the whole index record). -/
def indexEnsure (st : EStore) (name fieldValue userKey : String) : EStore :=
  let bs := indexBuckets st name
  let l := bucketGet bs fieldValue
  let l' := if userKey ∈ l then l else l ++ [userKey]
  alUpd st (RKey.index name) (RVal.indexV (bucketSet bs fieldValue l'))

/-- Modelled from the spec (§4.7): `remove(indexName, fieldValue,
userKey)` removes the key from the bucket. -/
def indexRemove (st : EStore) (name fieldValue userKey : String) : EStore :=
  let bs := indexBuckets st name
  let l := bucketGet bs fieldValue
  alUpd st (RKey.index name) (RVal.indexV (bucketSet bs fieldValue (l.filter (· ≠ userKey))))

lemma indexBuckets_upd_self (st : EStore) (name : String) (bs : List (String × List String)) :
    indexBuckets (alUpd st (RKey.index name) (RVal.indexV bs)) name = bs := by
  unfold indexBuckets
  rw [alGet_upd_self]

lemma indexBuckets_upd_nonindex (st : EStore) {k : RKey} (v : RVal)
    (h : ∀ n, k ≠ RKey.index n) (name : String) :
    indexBuckets (alUpd st k v) name = indexBuckets st name := by
  unfold indexBuckets
  rw [alGet_upd_ne st v (Ne.symm (h name))]

lemma indexBuckets_upd_index_other (st : EStore) {name n : String} (v : RVal)
    (h : n ≠ name) : indexBuckets (alUpd st (RKey.index name) v) n = indexBuckets st n := by
  unfold indexBuckets
  rw [alGet_upd_ne st v (fun he => h (RKey.index.inj he))]

lemma queryIndex_upd_nonindex (st : EStore) {k : RKey} (v : RVal)
    (h : ∀ n, k ≠ RKey.index n) (name fieldValue : String) :
    queryIndex (alUpd st k v) name fieldValue = queryIndex st name fieldValue := by
  unfold queryIndex
  rw [indexBuckets_upd_nonindex st v h]

lemma queryIndex_del_nonindex (st : EStore) {k : RKey}
    (h : ∀ n, k ≠ RKey.index n) (name fieldValue : String) :
    queryIndex (alDel st k) name fieldValue = queryIndex st name fieldValue := by
  unfold queryIndex indexBuckets
  rw [alGet_del_ne st (Ne.symm (h name))]

lemma queryIndex_ensure_self (st : EStore) (name fieldValue userKey : String) :
    userKey ∈ queryIndex (indexEnsure st name fieldValue userKey) name fieldValue := by
  have h1 : indexBuckets (indexEnsure st name fieldValue userKey) name =
      bucketSet (indexBuckets st name) fieldValue
        (if userKey ∈ bucketGet (indexBuckets st name) fieldValue
          then bucketGet (indexBuckets st name) fieldValue
          else bucketGet (indexBuckets st name) fieldValue ++ [userKey]) :=
    indexBuckets_upd_self st name _
  unfold queryIndex
  rw [h1, bucketGet_set_self]
  by_cases h : userKey ∈ bucketGet (indexBuckets st name) fieldValue
  · rw [if_pos h]
    exact h
  · rw [if_neg h]
    simp

/-- After `indexRemove name v k'`, a key is in a bucket iff it was there
before and is not the removed key in the removed bucket. -/
lemma queryIndex_remove (st : EStore) (name fieldValue userKey : String)
    (n v x : String) :
    x ∈ queryIndex (indexRemove st name fieldValue userKey) n v ↔
      (x ∈ queryIndex st n v ∧ ¬(n = name ∧ v = fieldValue ∧ x = userKey)) := by
  by_cases hn : n = name
  · subst hn
    have h1 : indexBuckets (indexRemove st n fieldValue userKey) n =
        bucketSet (indexBuckets st n) fieldValue
          ((bucketGet (indexBuckets st n) fieldValue).filter (· ≠ userKey)) :=
      indexBuckets_upd_self st n _
    unfold queryIndex
    rw [h1]
    by_cases hv : v = fieldValue
    · subst hv
      rw [bucketGet_set_self, List.mem_filter]
      constructor
      · rintro ⟨hm, hne⟩
        refine ⟨hm, ?_⟩
        rintro ⟨-, -, hx⟩
        simp only [ne_eq, decide_eq_true_eq] at hne
        exact hne hx
      · rintro ⟨hm, hni⟩
        refine ⟨hm, ?_⟩
        simp only [ne_eq, decide_eq_true_eq]
        intro hx
        exact hni ⟨rfl, rfl, hx⟩
    · rw [bucketGet_set_ne _ _ hv]
      simp [hv]
  · have h2 : indexBuckets (indexRemove st name fieldValue userKey) n = indexBuckets st n :=
      indexBuckets_upd_index_other st _ hn
    unfold queryIndex
    rw [h2]
    simp [hn]

/-! ### The first-colon split used on `indexKeys` entries (spec §4.11.3
step 5) -/

/-- Split a character list at the first occurrence of `c`. -/
def splitAtFirst (c : Char) : List Char → List Char × List Char
  | [] => ([], [])
  | x :: xs =>
    if x = c then ([], xs)
    else
      let p := splitAtFirst c xs
      (x :: p.1, p.2)

/-- Modelled from the spec (§4.11.3 step 5): split an `indexKeys` entry
`"<name>:<value>"` at the first colon. -/
def splitFirstColon (s : String) : String × String :=
  let p := splitAtFirst ':' s.data
  (String.mk p.1, String.mk p.2)

lemma splitAtFirst_append {c : Char} :
    ∀ (l1 l2 : List Char), c ∉ l1 → splitAtFirst c (l1 ++ c :: l2) = (l1, l2) := by
  intro l1
  induction l1 with
  | nil =>
    intro l2 _
    simp [splitAtFirst]
  | cons x xs ih =>
    intro l2 hnot
    have hx : x ≠ c := fun he => hnot (he ▸ List.mem_cons_self x xs)
    have hxs : c ∉ xs := fun hm => hnot (List.mem_cons_of_mem x hm)
    have hstep : splitAtFirst c ((x :: xs) ++ c :: l2) =
        (x :: (splitAtFirst c (xs ++ c :: l2)).1, (splitAtFirst c (xs ++ c :: l2)).2) := by
      simp [splitAtFirst, hx]
    rw [hstep, ih l2 hxs]

lemma splitFirstColon_entry {name v : String} (h : ':' ∉ name.data) :
    splitFirstColon (name ++ ":" ++ v) = (name, v) := by
  unfold splitFirstColon
  have hdata : (name ++ ":" ++ v).data = name.data ++ ':' :: v.data := by
    simp [String.data_append]
  rw [hdata, splitAtFirst_append name.data v.data h]

/-! ### Size estimation and eviction (spec §4.8, §6) -/

/-- Modelled from the spec (§6, key layout): length of the rendered key
string under a `<prefix>:<namespace>` base of length `pfxLen`
(`:__meta__:` has 10 characters, `:chunk:` 7, `:__index__:` 11,
`:__journal__` 12, `:__lock__` 9, `:__key__` 8). -/
def RKey.renderLen (pfxLen : Nat) : RKey → Nat
  | .marker k => pfxLen + 1 + k.length
  | .meta k => pfxLen + 10 + k.length
  | .chunk k i => pfxLen + 1 + k.length + 7 + (Nat.repr i).length
  | .index n => pfxLen + 11 + n.length
  | .journal => pfxLen + 12
  | .lock => pfxLen + 9
  | .enckey => pfxLen + 8

/-- Length of the stored JSON string of a metadata record (formula
models the rendered record; only its contribution to the size estimate
matters). -/
def Meta.strLen (m : Meta) : Nat :=
  120 + (Nat.repr m.created).length + (Nat.repr m.updated).length +
    (Nat.repr m.chunks).length + (Nat.repr m.size).length +
    (Nat.repr m.lru).length + (Nat.repr m.lfu).length +
    (m.indexKeys.map (fun s => s.length + 3)).sum

/-- Length of the stored string form of a value (chunk payloads count
their own length; structured records count their JSON rendering). -/
def RVal.strLen : RVal → Nat
  | .str s => s.length
  | .markerV n _ => 22 + (Nat.repr n).length
  | .metaV m => m.strLen
  | .indexV bs => 2 + (bs.map (fun b => b.1.length + 4 +
      (b.2.map (fun s => s.length + 3)).sum)).sum
  | .journalV rs => 2 + (rs.map (fun r => 40 + r.key.length + (Nat.repr r.ts).length)).sum
  | .lockV o e => 26 + o.length + (Nat.repr e).length

/-- Modelled from the spec (§4.8): the estimated namespace byte size —
the sum of key-length plus value-length over all prefixed entries (the
modelled store holds exactly the namespace's entries). -/
def estimateSize (cfg : Config) (st : EStore) : Nat :=
  (st.map (fun e => RKey.renderLen cfg.pfxLen e.1 + RVal.strLen e.2)).sum

/-- The eviction measure of a candidate: LRU timestamp under the LRU
policy, LFU counter under LFU (spec §4.8). -/
def Config.evMeasure (cfg : Config) (m : Meta) : Nat := if cfg.lru then m.lru else m.lfu

/-- An eviction candidate: a metadata entry of the store. -/
def candOf : RKey × RVal → Option (String × Meta)
  | (RKey.meta k, RVal.metaV m) => some (k, m)
  | _ => none

/-- The eviction candidates of a store, in traversal order. -/
def evCands : EStore → List (String × Meta)
  | [] => []
  | entry :: rest =>
    match candOf entry with
    | none => evCands rest
    | some c => c :: evCands rest

/-- Modelled from the spec (§4.8): victim selection — scan the store in
traversal order over the metadata records, keeping the first candidate
with the smallest measure (a later candidate replaces the best only when
strictly smaller, so ties go to the first in traversal order). -/
def pickVictim (cfg : Config) : EStore → Option (String × Meta)
  | [] => none
  | entry :: rest =>
    match candOf entry with
    | none => pickVictim cfg rest
    | some (k, m) =>
      match pickVictim cfg rest with
      | none => some (k, m)
      | some (k', m') =>
        if cfg.evMeasure m' < cfg.evMeasure m then some (k', m') else some (k, m)

/-! ### remove (spec §4.11.3) and get (spec §4.11.2) -/

/-- Delete the chunk entries `0 .. n-1` of a user key. -/
def delChunks (st : EStore) (k : String) : Nat → EStore
  | 0 => st
  | n + 1 => alDel (delChunks st k n) (RKey.chunk k n)

/-- Modelled from the spec (§4.11.3 step 5): for every entry of the
metadata's `indexKeys`, split at the first colon and remove the user key
from that index bucket. -/
def idxCleanup (userKey : String) : EStore → List String → EStore
  | st, [] => st
  | st, ik :: rest =>
    let p := splitFirstColon ik
    idxCleanup userKey (indexRemove st p.1 p.2 userKey) rest

/-- Modelled from the spec (§4.11.3): `remove(userKey)` — read the
metadata (absent: delete a stray marker, return false); journal
REMOVE_BEGIN; acquire the lock; delete chunks, metadata, marker; clean
the referenced index buckets; journal REMOVE_END; release; return true.
(The broadcast and the local event have no effect on the store.) -/
def removeOp (st0 : EStore) (k : String) (now : Nat) (owner : String) : Bool × EStore :=
  match alGet st0 (RKey.meta k) with
  | some (RVal.metaV m) =>
    (true, release (journalAppend (idxCleanup k (alDel (alDel (delChunks
      ((acquire owner now 8 (journalAppend st0 ⟨.removeBegin, k, now, none⟩)).2) k m.chunks)
      (RKey.meta k)) (RKey.marker k)) m.indexKeys) ⟨.removeEnd, k, now, none⟩) owner)
  | _ => (false, alDel st0 (RKey.marker k))

/-- Modelled from the spec (§4.11.2 step 3): the record is expired when
`expiresAt` is set and lies in the past (strictly before `now`). -/
def expired (m : Meta) (now : Nat) : Bool :=
  match m.expiresAt with
  | some e => decide (e < now)
  | none => false

/-- Modelled from the spec (§4.11.2 step 4): read chunks
`0 .. chunkCount-1` in order; any missing or malformed chunk yields
`none`. -/
def readChunks (st : EStore) (k : String) : Nat → Option (List String)
  | 0 => some []
  | n + 1 =>
    match readChunks st k n, alGet st (RKey.chunk k n) with
    | some acc, some (RVal.str s) => some (acc ++ [s])
    | _, _ => none

/-- In-order concatenation of the chunk payloads (spec §4.3 `join`). -/
def concatStrs (ss : List String) : String := String.mk (ss.map String.data).flatten

/-- Modelled from the spec (§4.11.2): `get(userKey)` at the payload
level.  Marker absent or malformed → `none` (the facade returns
`defaultValue`); metadata absent → `none`; expired → remove and `none`;
missing chunk → `none` (corrupt data degrades silently); otherwise join
the chunks, decode by the metadata's flags, touch LRU/LFU and persist
the metadata.  Reads do not take the lock. -/
def getOp (cd : Codec) (st0 : EStore) (k : String) (now : Nat) (owner : String) :
    Option String × EStore :=
  match alGet st0 (RKey.marker k) with
  | some (RVal.markerV _ _) =>
    match alGet st0 (RKey.meta k) with
    | some (RVal.metaV m) =>
      if expired m now then (none, (removeOp st0 k now owner).2)
      else
        match readChunks st0 k m.chunks with
        | none => (none, st0)
        | some ss =>
          let payload := decode cd m.compressed m.encrypted (concatStrs ss)
          let m' := { m with lru := now, lfu := m.lfu + 1 }
          (some payload, alUpd st0 (RKey.meta k) (RVal.metaV m'))
    | _ => (none, st0)
  | _ => (none, st0)

/-- Modelled from the spec (§4.8): the eviction loop — while the
estimated size exceeds the soft limit, select and remove one victim per
iteration, up to the fuel bound; returns the final store and the number
of evicted items. -/
def evictLoop (cfg : Config) (now : Nat) (owner : String) : Nat → EStore → EStore × Nat
  | 0, st => (st, 0)
  | fuel + 1, st =>
    if estimateSize cfg st ≤ cfg.softLimit then (st, 0)
    else
      match pickVictim cfg st with
      | none => (st, 0)
      | some (k, _) =>
        let r := evictLoop cfg now owner fuel (removeOp st k now owner).2
        (r.1, r.2 + 1)

/-- Modelled from the spec (§4.8): `maybeEvict()` — the eviction loop
with its 1000-iterations-per-call cap. -/
def maybeEvict (cfg : Config) (st : EStore) (now : Nat) (owner : String) : EStore × Nat :=
  evictLoop cfg now owner 1000 st

/-! ### set (spec §4.11.1) with failure injection -/

/-- A BackingStore failure schedule: the write that throws (`countdown`
counts the fallible writes of one `set`; `none` = no failure) and the
kind of error the store raises. -/
structure Fault where
  countdown : Option Nat
  err : Err
deriving DecidableEq

/-- Advance the schedule at one write: raise the scheduled error or
tick down. -/
def Fault.step : Fault → Except Err Fault
  | ⟨some 0, e⟩ => .error e
  | ⟨some (n + 1), e⟩ => .ok ⟨some n, e⟩
  | ⟨none, e⟩ => .ok ⟨none, e⟩

/-- Plain (non-failing) chunk writes in ascending index order
(spec §4.11.1 step 5). -/
def writeChunks (k : String) : EStore → Nat → List String → EStore
  | st, _, [] => st
  | st, i, s :: rest => writeChunks k (alUpd st (RKey.chunk k i) (RVal.str s)) (i + 1) rest

/-- Fallible chunk writes: each write consults the failure schedule. -/
def writeChunksF (k : String) :
    Fault → EStore → Nat → List String → Except (Err × EStore) (Fault × EStore)
  | f, st, _, [] => .ok (f, st)
  | f, st, i, s :: rest =>
    match f.step with
    | .error e => .error (e, st)
    | .ok f' => writeChunksF k f' (alUpd st (RKey.chunk k i) (RVal.str s)) (i + 1) rest

/-- Plain index maintenance (spec §4.11.1 step 8): for each
`{name, field}` spec whose field value is defined, ensure the index
entry and record `"<name>:<stringified value>"`. -/
def writeIdx (k : String) :
    EStore → List (String × Option String) → List String → EStore × List String
  | st, [], acc => (st, acc)
  | st, (_, none) :: rest, acc => writeIdx k st rest acc
  | st, (nm, some v) :: rest, acc =>
    writeIdx k (indexEnsure st nm v k) rest (acc ++ [nm ++ ":" ++ v])

/-- Fallible index maintenance. -/
def writeIdxF (k : String) :
    Fault → EStore → List (String × Option String) → List String →
      Except (Err × EStore) (Fault × EStore × List String)
  | f, st, [], acc => .ok (f, st, acc)
  | f, st, (_, none) :: rest, acc => writeIdxF k f st rest acc
  | f, st, (nm, some v) :: rest, acc =>
    match f.step with
    | .error e => .error (e, st)
    | .ok f' => writeIdxF k f' (indexEnsure st nm v k) rest (acc ++ [nm ++ ":" ++ v])

/-- Modelled from the spec (§4.11.1 step 3): the proposed metadata
snapshot of a `set`. -/
def mkMeta (cfg : Config) (ttl : Option Nat) (compress encrypt : Bool)
    (n size now : Nat) : Meta :=
  { created := now, updated := now, ttl := ttl, expiresAt := ttl.map (now + ·),
    compressed := compress, encrypted := encrypt, chunks := n, size := size,
    lru := now, lfu := 0, indexKeys := [], schemaVersion := cfg.schemaVersion }

/-- The fallible write sequence of `set` (spec §4.11.1 steps 5-10) over
an arbitrary start state: chunks in ascending order, metadata, marker,
index entries with the updated metadata, journal SET_END.  An error
surfaces with the store as written so far (rollback is `setF`'s job). -/
def setBody (k : String) (slices : List String) (meta0 : Meta)
    (idx : List (String × Option String)) (now : Nat) (fa : Fault) (st2 : EStore) :
    Except (Err × EStore) EStore :=
  match writeChunksF k fa st2 0 slices with
  | .error (e, st) => .error (e, st)
  | .ok (f1, st3) =>
    match f1.step with
    | .error e => .error (e, st3)
    | .ok f2 =>
      let st4 := alUpd st3 (RKey.meta k) (RVal.metaV meta0)
      match f2.step with
      | .error e => .error (e, st4)
      | .ok f3 =>
        let st5 := alUpd st4 (RKey.marker k) (RVal.markerV slices.length (RKey.meta k))
        match writeIdxF k f3 st5 idx [] with
        | .error (e, st) => .error (e, st)
        | .ok (f4, st6, acc) =>
          if acc.isEmpty then
            match f4.step with
            | .error e => .error (e, st6)
            | .ok _ => .ok (journalAppend st6 ⟨.setEnd, k, now, none⟩)
          else
            match f4.step with
            | .error e => .error (e, st6)
            | .ok f5 =>
              let st7 := alUpd st6 (RKey.meta k) (RVal.metaV { meta0 with indexKeys := acc })
              match f5.step with
              | .error e => .error (e, st7)
              | .ok _ => .ok (journalAppend st7 ⟨.setEnd, k, now, none⟩)

/-- Modelled from the spec (§4.11.1 steps 1-10): encode, chunk, journal
SET_BEGIN with the snapshot, best-effort lock, then the fallible write
sequence `setBody`. -/
def setCore (cfg : Config) (cd : Codec) (fa : Fault) (st0 : EStore) (k : String)
    (payload : String) (ttl : Option Nat) (compress encrypt : Bool)
    (idx : List (String × Option String)) (now : Nat) (owner : String) :
    Except (Err × EStore) EStore :=
  let encoded := encode cd compress encrypt payload
  let slices := (chunksOf cfg.shardSize encoded.data).map String.mk
  let meta0 := mkMeta cfg ttl compress encrypt slices.length encoded.length now
  let st1 := journalAppend st0 ⟨.setBegin, k, now, some meta0⟩
  let st2 := (acquire owner now 8 st1).2
  setBody k slices meta0 idx now fa st2

/-- Modelled from the spec (§4.11.1, error path): delete every chunk
this `set` attempted, the metadata and the marker; append SET_ROLLBACK.
Rollback is silent and cannot itself fail. -/
def rollback (st : EStore) (k : String) (n : Nat) (now : Nat) : EStore :=
  let st1 := delChunks st k n
  let st2 := alDel st1 (RKey.meta k)
  let st3 := alDel st2 (RKey.marker k)
  journalAppend st3 ⟨.setRollback, k, now, none⟩

/-- Modelled from the spec (§4.11.1): the full `set` — the core write
sequence, then eviction (step 11) and lock release (step 12) on
success, or rollback and re-throw (with the original error kind) on
failure. -/
def setF (cfg : Config) (cd : Codec) (fa : Fault) (st0 : EStore) (k : String)
    (payload : String) (ttl : Option Nat) (compress encrypt : Bool)
    (idx : List (String × Option String)) (now : Nat) (owner : String) :
    Except (Err × EStore) EStore :=
  match setCore cfg cd fa st0 k payload ttl compress encrypt idx now owner with
  | .ok st => .ok (release (maybeEvict cfg st now owner).1 owner)
  | .error (e, stf) =>
    .error (e, rollback stf k
      (chunksOf cfg.shardSize (encode cd compress encrypt payload).data).length now)

/-- Estimated size right after the core write sequence of a failure-free
`set` (0 if the core cannot succeed); the no-eviction hypothesis of the
round-trip claims is phrased with it. -/
def estAfterCore (cfg : Config) (cd : Codec) (st0 : EStore) (k : String)
    (payload : String) (ttl : Option Nat) (compress encrypt : Bool)
    (idx : List (String × Option String)) (now : Nat) (owner : String) : Nat :=
  match setCore cfg cd ⟨none, Err.storageFull⟩ st0 k payload ttl compress encrypt idx now owner with
  | .ok st => estimateSize cfg st
  | .error _ => 0

/-- Value-level `set` (spec §4.11.1 step 1: JSON-stringify first),
failure-free. -/
def setValue {α : Type} (ser : α → String) (cfg : Config) (cd : Codec) (st0 : EStore)
    (k : String) (v : α) (ttl : Option Nat) (compress encrypt : Bool)
    (idx : List (String × Option String)) (now : Nat) (owner : String) :
    Except (Err × EStore) EStore :=
  setF cfg cd ⟨none, Err.storageFull⟩ st0 k (ser v) ttl compress encrypt idx now owner

/-- Value-level `get` (spec §4.11.2 step 6: parse the decoded string,
falling back to the raw string when the parse fails). -/
def getValue {α : Type} (de : String → Option α) (cd : Codec) (st0 : EStore) (k : String)
    (now : Nat) (owner : String) : Option (α ⊕ String) × EStore :=
  match getOp cd st0 k now owner with
  | (none, st) => (none, st)
  | (some s, st) =>
    match de s with
    | some v => (some (Sum.inl v), st)
    | none => (some (Sum.inr s), st)

/-! ### Plain-mode equivalences and lookup lemmas -/

lemma Fault.step_none (e : Err) : Fault.step ⟨none, e⟩ = .ok ⟨none, e⟩ := rfl

lemma Fault.step_err_of_error {f : Fault} {e : Err} (h : f.step = .error e) : e = f.err := by
  obtain ⟨c, err⟩ := f
  rcases c with _ | n
  · simp [Fault.step] at h
  · rcases n with _ | n
    · simp [Fault.step] at h
      exact h.symm
    · simp [Fault.step] at h

lemma Fault.step_err_of_ok {f f' : Fault} (h : f.step = .ok f') : f'.err = f.err := by
  obtain ⟨c, err⟩ := f
  rcases c with _ | n
  · simp [Fault.step] at h
    rw [← h]
  · rcases n with _ | n
    · simp [Fault.step] at h
    · simp [Fault.step] at h
      rw [← h]

lemma writeChunksF_none (k : String) (e : Err) :
    ∀ (slices : List String) (st : EStore) (i : Nat),
      writeChunksF k ⟨none, e⟩ st i slices = .ok (⟨none, e⟩, writeChunks k st i slices) := by
  intro slices
  induction slices with
  | nil => intro st i; rfl
  | cons s rest ih =>
    intro st i
    show writeChunksF k ⟨none, e⟩ _ (i + 1) rest = _
    rw [ih]
    rfl

lemma writeIdxF_none (k : String) (e : Err) :
    ∀ (idx : List (String × Option String)) (st : EStore) (acc : List String),
      writeIdxF k ⟨none, e⟩ st idx acc = .ok (⟨none, e⟩, writeIdx k st idx acc) := by
  intro idx
  induction idx with
  | nil => intro st acc; rfl
  | cons sp rest ih =>
    intro st acc
    obtain ⟨nm, v?⟩ := sp
    rcases v? with _ | v
    · show writeIdxF k ⟨none, e⟩ st rest acc = _
      rw [ih]
      rfl
    · show writeIdxF k ⟨none, e⟩ _ rest _ = _
      rw [ih]
      rfl

lemma writeChunks_get_other (k : String) :
    ∀ (slices : List String) (st : EStore) (i : Nat) {key : RKey},
      (∀ j, j < slices.length → key ≠ RKey.chunk k (i + j)) →
      alGet (writeChunks k st i slices) key = alGet st key := by
  intro slices
  induction slices with
  | nil => intro st i key _; rfl
  | cons s rest ih =>
    intro st i key h
    show alGet (writeChunks k _ (i + 1) rest) key = _
    rw [ih _ _ (fun j hj => by
      have := h (j + 1) (by simp; omega)
      rwa [show i + (j + 1) = i + 1 + j by omega] at this)]
    exact alGet_upd_ne st _ (by simpa using h 0 (by simp))

lemma writeChunks_get_at (k : String) :
    ∀ (slices : List String) (st : EStore) (i j : Nat), j < slices.length →
      alGet (writeChunks k st i slices) (RKey.chunk k (i + j)) =
        some (RVal.str (slices.getD j "")) := by
  intro slices
  induction slices with
  | nil => intro st i j hj; simp at hj
  | cons s rest ih =>
    intro st i j hj
    show alGet (writeChunks k (alUpd st (RKey.chunk k i) (RVal.str s)) (i + 1) rest) _ = _
    rcases j with _ | j
    · rw [writeChunks_get_other k rest _ _ (fun j' hj' h => by
        have := RKey.chunk.inj h
        omega)]
      rw [show i + 0 = i by omega, alGet_upd_self]
      rfl
    · rw [show i + (j + 1) = (i + 1) + j by omega]
      rw [ih _ (i + 1) j (by simp at hj; omega)]
      rfl

lemma delChunks_get_lt (st : EStore) (k : String) :
    ∀ (n i : Nat), i < n → alGet (delChunks st k n) (RKey.chunk k i) = none := by
  intro n
  induction n with
  | zero => intro i hi; omega
  | succ n ih =>
    intro i hi
    show alGet (alDel (delChunks st k n) (RKey.chunk k n)) (RKey.chunk k i) = none
    by_cases he : i = n
    · subst he
      exact alGet_del_self _ _
    · rw [alGet_del_ne _ (fun h => he (RKey.chunk.inj h).2)]
      exact ih i (by omega)

lemma delChunks_get_other (st : EStore) (k : String) :
    ∀ (n : Nat) {key : RKey}, (∀ i, i < n → key ≠ RKey.chunk k i) →
      alGet (delChunks st k n) key = alGet st key := by
  intro n
  induction n with
  | zero => intro key _; rfl
  | succ n ih =>
    intro key h
    show alGet (alDel (delChunks st k n) (RKey.chunk k n)) key = alGet st key
    rw [alGet_del_ne _ (h n (by omega)), ih (fun i hi => h i (by omega))]

lemma idxCleanup_get_nonindex (userKey : String) :
    ∀ (iks : List String) (st : EStore) {key : RKey}, (∀ n, key ≠ RKey.index n) →
      alGet (idxCleanup userKey st iks) key = alGet st key := by
  intro iks
  induction iks with
  | nil => intro st key _; rfl
  | cons ik rest ih =>
    intro st key h
    show alGet (idxCleanup userKey (indexRemove st _ _ userKey) rest) key = _
    rw [ih _ h]
    exact alGet_upd_ne st _ (Ne.symm (Ne.symm (h _)))

lemma writeIdx_get_nonindex (k : String) :
    ∀ (idx : List (String × Option String)) (st : EStore) (acc : List String) {key : RKey},
      (∀ n, key ≠ RKey.index n) →
      alGet (writeIdx k st idx acc).1 key = alGet st key := by
  intro idx
  induction idx with
  | nil => intro st acc key _; rfl
  | cons sp rest ih =>
    intro st acc key h
    obtain ⟨nm, v?⟩ := sp
    rcases v? with _ | v
    · exact ih st acc h
    · show alGet (writeIdx k (indexEnsure st nm v k) rest _).1 key = _
      rw [ih _ _ h]
      exact alGet_upd_ne st _ (h nm)

/-! ### Lock behavior -/

lemma acquire_foreign {o owner : String} {e now : Nat} (ho : o ≠ owner) (he : ¬ e < now) :
    ∀ (attempts : Nat) (st : EStore), alGet st RKey.lock = some (RVal.lockV o e) →
      acquire owner now attempts st = (false, st) := by
  intro attempts
  induction attempts with
  | zero => intro st _; rfl
  | succ n ih =>
    intro st hl
    have hstep : acquireStep owner now st = st := by
      unfold acquireStep
      rw [hl]
      exact if_neg he
    simp only [acquire, hstep, hl, if_neg ho]
    exact ih st hl

lemma release_foreign {o : String} {e : Nat} {st : EStore} (owner : String)
    (hl : alGet st RKey.lock = some (RVal.lockV o e)) (ho : o ≠ owner) :
    release st owner = st := by
  unfold release
  rw [hl]
  exact if_neg ho

lemma release_own {o : String} {e : Nat} {st : EStore} (owner : String)
    (hl : alGet st RKey.lock = some (RVal.lockV o e)) (ho : o = owner) :
    alGet (release st owner) RKey.lock = none := by
  unfold release
  rw [hl]
  show alGet (if o = owner then alDel st RKey.lock else st) RKey.lock = none
  rw [if_pos ho]
  exact alGet_del_self st RKey.lock

/-! ### Eviction: no-op below the soft limit -/

lemma maybeEvict_noop {cfg : Config} {st : EStore} {now : Nat} {owner : String}
    (h : estimateSize cfg st ≤ cfg.softLimit) : maybeEvict cfg st now owner = (st, 0) := by
  show evictLoop cfg now owner (999 + 1) st = (st, 0)
  rw [evictLoop, if_pos h]

/-! ### The failure-free write sequence, explicitly -/

/-- The chunk slices of an encoded payload (spec §4.11.1 steps 1-2). -/
def encSlices (cfg : Config) (cd : Codec) (compress encrypt : Bool)
    (payload : String) : List String :=
  (chunksOf cfg.shardSize (encode cd compress encrypt payload).data).map String.mk

/-- The `indexKeys` entries a `set` records for an index spec list
(spec §4.11.1 step 8). -/
def idxAcc : List (String × Option String) → List String
  | [] => []
  | (_, none) :: rest => idxAcc rest
  | (nm, some v) :: rest => (nm ++ ":" ++ v) :: idxAcc rest

/-- The metadata snapshot a `set` proposes (spec §4.11.1 step 3). -/
def metaSnap (cfg : Config) (cd : Codec) (payload : String) (ttl : Option Nat)
    (compress encrypt : Bool) (now : Nat) : Meta :=
  mkMeta cfg ttl compress encrypt
    (encSlices cfg cd compress encrypt payload).length
    (encode cd compress encrypt payload).length now

/-- The metadata record as persisted by a failure-free `set`
(spec §4.11.1 steps 3 and 8). -/
def metaFinal (cfg : Config) (cd : Codec) (payload : String) (ttl : Option Nat)
    (compress encrypt : Bool) (idx : List (String × Option String)) (now : Nat) : Meta :=
  if idxAcc idx = [] then metaSnap cfg cd payload ttl compress encrypt now
  else { metaSnap cfg cd payload ttl compress encrypt now with indexKeys := idxAcc idx }

/-- The store after SET_BEGIN is journaled and the lock attempted
(spec §4.11.1 steps 3-4). -/
def stagePre (cfg : Config) (cd : Codec) (st0 : EStore) (k : String) (payload : String)
    (ttl : Option Nat) (compress encrypt : Bool) (now : Nat) (owner : String) : EStore :=
  (acquire owner now 8 (journalAppend st0
    ⟨.setBegin, k, now, some (metaSnap cfg cd payload ttl compress encrypt now)⟩)).2

/-- The store after the chunks, the metadata and the marker are written
(spec §4.11.1 steps 5-7). -/
def stageMark (cfg : Config) (cd : Codec) (st0 : EStore) (k : String) (payload : String)
    (ttl : Option Nat) (compress encrypt : Bool) (now : Nat) (owner : String) : EStore :=
  alUpd (alUpd (writeChunks k (stagePre cfg cd st0 k payload ttl compress encrypt now owner) 0
      (encSlices cfg cd compress encrypt payload))
    (RKey.meta k) (RVal.metaV (metaSnap cfg cd payload ttl compress encrypt now)))
    (RKey.marker k)
    (RVal.markerV (encSlices cfg cd compress encrypt payload).length (RKey.meta k))

/-- The store state right after the core write sequence of a
failure-free `set` (spec §4.11.1 steps 1-10). -/
def setCoreRun (cfg : Config) (cd : Codec) (st0 : EStore) (k : String)
    (payload : String) (ttl : Option Nat) (compress encrypt : Bool)
    (idx : List (String × Option String)) (now : Nat) (owner : String) : EStore :=
  if ((writeIdx k (stageMark cfg cd st0 k payload ttl compress encrypt now owner) idx []).2).isEmpty
  then
    journalAppend (writeIdx k (stageMark cfg cd st0 k payload ttl compress encrypt now owner)
      idx []).1 ⟨.setEnd, k, now, none⟩
  else
    journalAppend (alUpd (writeIdx k (stageMark cfg cd st0 k payload ttl compress encrypt now owner)
        idx []).1 (RKey.meta k)
        (RVal.metaV { metaSnap cfg cd payload ttl compress encrypt now with
          indexKeys := (writeIdx k (stageMark cfg cd st0 k payload ttl compress encrypt now owner)
            idx []).2 }))
      ⟨.setEnd, k, now, none⟩

lemma writeIdx_acc (k : String) :
    ∀ (idx : List (String × Option String)) (st : EStore) (acc : List String),
      (writeIdx k st idx acc).2 = acc ++ idxAcc idx := by
  intro idx
  induction idx with
  | nil => intro st acc; simp [writeIdx, idxAcc]
  | cons sp rest ih =>
    intro st acc
    obtain ⟨nm, v?⟩ := sp
    rcases v? with _ | v
    · show (writeIdx k st rest acc).2 = _
      rw [ih]
      rfl
    · show (writeIdx k _ rest (acc ++ [nm ++ ":" ++ v])).2 = _
      rw [ih]
      simp [idxAcc]

lemma setCore_none_eq (cfg : Config) (cd : Codec) (e : Err) (st0 : EStore) (k : String)
    (payload : String) (ttl : Option Nat) (compress encrypt : Bool)
    (idx : List (String × Option String)) (now : Nat) (owner : String) :
    setCore cfg cd ⟨none, e⟩ st0 k payload ttl compress encrypt idx now owner =
      .ok (setCoreRun cfg cd st0 k payload ttl compress encrypt idx now owner) := by
  simp only [setCore, setBody, setCoreRun, stageMark, stagePre, metaSnap, encSlices,
    writeChunksF_none, writeIdxF_none, Fault.step_none]
  split <;> rfl

/-! ### Lookups after a failure-free set -/

section Lookups

variable (cfg : Config) (cd : Codec) (st0 : EStore) (k payload : String) (ttl : Option Nat)
  (compress encrypt : Bool) (idx : List (String × Option String)) (now : Nat) (owner : String)

lemma stageMark_marker :
    alGet (stageMark cfg cd st0 k payload ttl compress encrypt now owner) (RKey.marker k) =
      some (RVal.markerV (encSlices cfg cd compress encrypt payload).length (RKey.meta k)) := by
  unfold stageMark
  exact alGet_upd_self _ _ _

lemma stageMark_meta :
    alGet (stageMark cfg cd st0 k payload ttl compress encrypt now owner) (RKey.meta k) =
      some (RVal.metaV (metaSnap cfg cd payload ttl compress encrypt now)) := by
  unfold stageMark
  rw [alGet_upd_ne _ _ (fun h => RKey.noConfusion h)]
  exact alGet_upd_self _ _ _

lemma stageMark_chunk (i : Nat) (hi : i < (encSlices cfg cd compress encrypt payload).length) :
    alGet (stageMark cfg cd st0 k payload ttl compress encrypt now owner) (RKey.chunk k i) =
      some (RVal.str ((encSlices cfg cd compress encrypt payload).getD i "")) := by
  unfold stageMark
  rw [alGet_upd_ne _ _ (fun h => RKey.noConfusion h),
    alGet_upd_ne _ _ (fun h => RKey.noConfusion h)]
  have := writeChunks_get_at k (encSlices cfg cd compress encrypt payload)
    (stagePre cfg cd st0 k payload ttl compress encrypt now owner) 0 i hi
  rwa [Nat.zero_add] at this

lemma setCoreRun_get_pres {key : RKey} (hidx : ∀ n, key ≠ RKey.index n)
    (hj : key ≠ RKey.journal) (hm : key ≠ RKey.meta k) :
    alGet (setCoreRun cfg cd st0 k payload ttl compress encrypt idx now owner) key =
      alGet (stageMark cfg cd st0 k payload ttl compress encrypt now owner) key := by
  unfold setCoreRun
  by_cases hb : ((writeIdx k (stageMark cfg cd st0 k payload ttl compress encrypt now owner)
      idx []).2).isEmpty
  · rw [if_pos hb, journalAppend_get_other _ _ hj, writeIdx_get_nonindex k idx _ [] hidx]
  · rw [if_neg hb, journalAppend_get_other _ _ hj, alGet_upd_ne _ _ hm,
      writeIdx_get_nonindex k idx _ [] hidx]

lemma setCoreRun_meta :
    alGet (setCoreRun cfg cd st0 k payload ttl compress encrypt idx now owner) (RKey.meta k) =
      some (RVal.metaV (metaFinal cfg cd payload ttl compress encrypt idx now)) := by
  unfold setCoreRun metaFinal
  have hacc : (writeIdx k (stageMark cfg cd st0 k payload ttl compress encrypt now owner)
      idx []).2 = idxAcc idx := by
    rw [writeIdx_acc]
    exact List.nil_append _
  rw [hacc]
  rcases heq : idxAcc idx with _ | ⟨a, rest⟩
  · rw [if_pos rfl]
    simp only [List.isEmpty_nil, if_true]
    rw [journalAppend_get_other _ _ (fun h => RKey.noConfusion h),
      writeIdx_get_nonindex k idx _ [] (fun n h => RKey.noConfusion h)]
    exact stageMark_meta cfg cd st0 k payload ttl compress encrypt now owner
  · rw [if_neg (by simp)]
    simp only [List.isEmpty_cons, Bool.false_eq_true, if_false]
    rw [journalAppend_get_other _ _ (fun h => RKey.noConfusion h)]
    exact alGet_upd_self _ _ _

lemma setCoreRun_query_single (nm v : String) :
    k ∈ queryIndex (setCoreRun cfg cd st0 k payload ttl compress encrypt
      [(nm, some v)] now owner) nm v := by
  unfold setCoreRun
  have hw : writeIdx k (stageMark cfg cd st0 k payload ttl compress encrypt now owner)
      [(nm, some v)] [] =
      (indexEnsure (stageMark cfg cd st0 k payload ttl compress encrypt now owner) nm v k,
        [nm ++ ":" ++ v]) := rfl
  rw [hw]
  rw [if_neg (by simp)]
  have h1 : ∀ (st : EStore) (mv : RVal),
      queryIndex (journalAppend (alUpd st (RKey.meta k) mv) ⟨.setEnd, k, now, none⟩) nm v =
      queryIndex st nm v := by
    intro st mv
    unfold queryIndex indexBuckets journalAppend
    rw [alGet_upd_ne _ _ (fun h => RKey.noConfusion h),
      alGet_upd_ne _ _ (fun h => RKey.noConfusion h)]
  rw [h1]
  exact queryIndex_ensure_self _ nm v k

end Lookups

/-! ### Reading an item back -/

lemma readChunks_take (st : EStore) (k : String) (l : List String)
    (h : ∀ i, i < l.length → alGet st (RKey.chunk k i) = some (RVal.str (l.getD i ""))) :
    ∀ n, n ≤ l.length → readChunks st k n = some (l.take n) := by
  intro n
  induction n with
  | zero => intro _; rfl
  | succ n ih =>
    intro hn
    have h1 := ih (by omega)
    have h2 := h n (by omega)
    show (match readChunks st k n, alGet st (RKey.chunk k n) with
      | some acc, some (RVal.str s) => some (acc ++ [s])
      | _, _ => none) = some (l.take (n + 1))
    rw [h1, h2]
    show some (l.take n ++ [l.getD n ""]) = some (l.take (n + 1))
    congr 1
    rw [List.take_succ, List.getElem?_eq_getElem (by omega)]
    congr 1
    rw [List.getD_eq_getElem l "" (by omega)]
    rfl

lemma readChunks_full (st : EStore) (k : String) (l : List String)
    (h : ∀ i, i < l.length → alGet st (RKey.chunk k i) = some (RVal.str (l.getD i ""))) :
    readChunks st k l.length = some l := by
  have := readChunks_take st k l h l.length le_rfl
  rwa [List.take_length] at this

/-- The stored shape of one item: marker present, metadata present with
the item's chunk count, codec flags and expiry, every chunk present, and
the chunks decoding back to the payload.  `get` needs exactly this; `lru`,
`lfu` and the other metadata fields may drift. -/
def ItemInv (cd : Codec) (st : EStore) (k payload : String) (compress encrypt : Bool)
    (exp : Option Nat) (slices : List String) : Prop :=
  (∃ n ref, alGet st (RKey.marker k) = some (RVal.markerV n ref)) ∧
  (∃ m : Meta, alGet st (RKey.meta k) = some (RVal.metaV m) ∧
    m.chunks = slices.length ∧ m.compressed = compress ∧ m.encrypted = encrypt ∧
    m.expiresAt = exp) ∧
  (∀ i, i < slices.length → alGet st (RKey.chunk k i) = some (RVal.str (slices.getD i ""))) ∧
  decode cd compress encrypt (concatStrs slices) = payload

/-- A fresh, un-expired read returns the payload and preserves the item
shape (spec §4.11.2 steps 1-2 and 4-8). -/
lemma getOp_of_inv {cd : Codec} {st : EStore} {k payload : String} {compress encrypt : Bool}
    {exp : Option Nat} {slices : List String} {now : Nat} {owner : String}
    (hinv : ItemInv cd st k payload compress encrypt exp slices)
    (hfresh : ∀ t, exp = some t → ¬ t < now) :
    (getOp cd st k now owner).1 = some payload ∧
    ItemInv cd (getOp cd st k now owner).2 k payload compress encrypt exp slices := by
  obtain ⟨⟨n, ref, hmark⟩, ⟨m, hmeta, hchunks, hcomp, henc, hexp⟩, hch, hdec⟩ := hinv
  have hexpired : expired m now = false := by
    unfold expired
    rw [hexp]
    rcases exp with _ | t
    · rfl
    · simp [hfresh t rfl]
  have hread : readChunks st k m.chunks = some slices := by
    rw [hchunks]
    exact readChunks_full st k slices hch
  have hget : getOp cd st k now owner =
      (some payload, alUpd st (RKey.meta k) (RVal.metaV { m with lru := now, lfu := m.lfu + 1 })) := by
    unfold getOp
    rw [hmark, hmeta]
    show (if expired m now = true then ((none : Option String), (removeOp st k now owner).2)
      else match readChunks st k m.chunks with
        | none => ((none : Option String), st)
        | some ss =>
          (some (decode cd m.compressed m.encrypted (concatStrs ss)),
            alUpd st (RKey.meta k) (RVal.metaV { m with lru := now, lfu := m.lfu + 1 }))) = _
    rw [hexpired]
    rw [if_neg (by simp), hread]
    show (some (decode cd m.compressed m.encrypted (concatStrs slices)),
      alUpd st (RKey.meta k) (RVal.metaV { m with lru := now, lfu := m.lfu + 1 })) = _
    rw [hcomp, henc, hdec]
  rw [hget]
  refine ⟨rfl, ⟨n, ref, ?_⟩, ⟨{ m with lru := now, lfu := m.lfu + 1 }, ?_, hchunks, hcomp, henc, hexp⟩,
    fun i hi => ?_, hdec⟩
  · rw [alGet_upd_ne _ _ (fun h => RKey.noConfusion h)]
    exact hmark
  · exact alGet_upd_self _ _ _
  · rw [alGet_upd_ne _ _ (fun h => RKey.noConfusion h)]
    exact hch i hi

/-! ### The error path of set: kind preservation and rollback -/

lemma writeChunksF_error (k : String) :
    ∀ (slices : List String) (f : Fault) (st : EStore) (i : Nat) {e : Err} {st' : EStore},
      writeChunksF k f st i slices = .error (e, st') → e = f.err := by
  intro slices
  induction slices with
  | nil =>
    intro f st i e st' h
    simp [writeChunksF] at h
  | cons s rest ih =>
    intro f st i e st' h
    rcases hs : f.step with e2 | f'
    · have heq : writeChunksF k f st i (s :: rest) = Except.error (e2, st) := by
        show (match f.step with
          | .error e => Except.error (e, st)
          | .ok f' => writeChunksF k f' (alUpd st (RKey.chunk k i) (RVal.str s)) (i + 1) rest) = _
        rw [hs]
      rw [heq] at h
      have h1 : e2 = e := by
        simp only [Except.error.injEq, Prod.mk.injEq] at h
        exact h.1
      rw [← h1]
      exact Fault.step_err_of_error hs
    · have heq : writeChunksF k f st i (s :: rest) =
          writeChunksF k f' (alUpd st (RKey.chunk k i) (RVal.str s)) (i + 1) rest := by
        show (match f.step with
          | .error e => Except.error (e, st)
          | .ok f' => writeChunksF k f' (alUpd st (RKey.chunk k i) (RVal.str s)) (i + 1) rest) = _
        rw [hs]
      rw [heq] at h
      rw [ih f' _ _ h]
      exact Fault.step_err_of_ok hs

lemma writeIdxF_error (k : String) :
    ∀ (idx : List (String × Option String)) (f : Fault) (st : EStore) (acc : List String)
      {e : Err} {st' : EStore},
      writeIdxF k f st idx acc = .error (e, st') → e = f.err := by
  intro idx
  induction idx with
  | nil =>
    intro f st acc e st' h
    simp [writeIdxF] at h
  | cons sp rest ih =>
    intro f st acc e st' h
    obtain ⟨nm, v?⟩ := sp
    rcases v? with _ | v
    · exact ih f st acc h
    · rcases hs : f.step with e2 | f'
      · have heq : writeIdxF k f st ((nm, some v) :: rest) acc = Except.error (e2, st) := by
          show (match f.step with
            | .error e => Except.error (e, st)
            | .ok f' => writeIdxF k f' (indexEnsure st nm v k) rest (acc ++ [nm ++ ":" ++ v])) = _
          rw [hs]
        rw [heq] at h
        have h1 : e2 = e := by
          simp only [Except.error.injEq, Prod.mk.injEq] at h
          exact h.1
        rw [← h1]
        exact Fault.step_err_of_error hs
      · have heq : writeIdxF k f st ((nm, some v) :: rest) acc =
            writeIdxF k f' (indexEnsure st nm v k) rest (acc ++ [nm ++ ":" ++ v]) := by
          show (match f.step with
            | .error e => Except.error (e, st)
            | .ok f' => writeIdxF k f' (indexEnsure st nm v k) rest (acc ++ [nm ++ ":" ++ v])) = _
          rw [hs]
        rw [heq] at h
        rw [ih f' _ _ h]
        exact Fault.step_err_of_ok hs

lemma writeChunksF_ok_err (k : String) :
    ∀ (slices : List String) (f : Fault) (st : EStore) (i : Nat) {f' : Fault} {st' : EStore},
      writeChunksF k f st i slices = .ok (f', st') → f'.err = f.err := by
  intro slices
  induction slices with
  | nil =>
    intro f st i f' st' h
    simp only [writeChunksF, Except.ok.injEq, Prod.mk.injEq] at h
    rw [← h.1]
  | cons s rest ih =>
    intro f st i f' st' h
    rcases hs : f.step with e2 | f2
    · have heq : writeChunksF k f st i (s :: rest) = Except.error (e2, st) := by
        show (match f.step with
          | .error e => Except.error (e, st)
          | .ok f' => writeChunksF k f' (alUpd st (RKey.chunk k i) (RVal.str s)) (i + 1) rest) = _
        rw [hs]
      rw [heq] at h
      simp at h
    · have heq : writeChunksF k f st i (s :: rest) =
          writeChunksF k f2 (alUpd st (RKey.chunk k i) (RVal.str s)) (i + 1) rest := by
        show (match f.step with
          | .error e => Except.error (e, st)
          | .ok f' => writeChunksF k f' (alUpd st (RKey.chunk k i) (RVal.str s)) (i + 1) rest) = _
        rw [hs]
      rw [heq] at h
      rw [ih f2 _ _ h]
      exact Fault.step_err_of_ok hs

lemma writeIdxF_ok_err (k : String) :
    ∀ (idx : List (String × Option String)) (f : Fault) (st : EStore) (acc : List String)
      {f' : Fault} {r : EStore × List String},
      writeIdxF k f st idx acc = .ok (f', r) → f'.err = f.err := by
  intro idx
  induction idx with
  | nil =>
    intro f st acc f' r h
    simp only [writeIdxF, Except.ok.injEq, Prod.mk.injEq] at h
    rw [← h.1]
  | cons sp rest ih =>
    intro f st acc f' r h
    obtain ⟨nm, v?⟩ := sp
    rcases v? with _ | v
    · exact ih f st acc h
    · rcases hs : f.step with e2 | f2
      · have heq : writeIdxF k f st ((nm, some v) :: rest) acc = Except.error (e2, st) := by
          show (match f.step with
            | .error e => Except.error (e, st)
            | .ok f' => writeIdxF k f' (indexEnsure st nm v k) rest (acc ++ [nm ++ ":" ++ v])) = _
          rw [hs]
        rw [heq] at h
        simp at h
      · have heq : writeIdxF k f st ((nm, some v) :: rest) acc =
            writeIdxF k f2 (indexEnsure st nm v k) rest (acc ++ [nm ++ ":" ++ v]) := by
          show (match f.step with
            | .error e => Except.error (e, st)
            | .ok f' => writeIdxF k f' (indexEnsure st nm v k) rest (acc ++ [nm ++ ":" ++ v])) = _
          rw [hs]
        rw [heq] at h
        rw [ih f2 _ _ h]
        exact Fault.step_err_of_ok hs

lemma setBody_error {k : String} {slices : List String} {meta0 : Meta}
    {idx : List (String × Option String)} {now : Nat} {fa : Fault} {st2 : EStore}
    {e : Err} {st' : EStore}
    (h : setBody k slices meta0 idx now fa st2 = .error (e, st')) : e = fa.err := by
  unfold setBody at h
  rcases hw : writeChunksF k fa st2 0 slices with ⟨e1, stE⟩ | ⟨f1, st3⟩
  · simp only [hw, Except.error.injEq, Prod.mk.injEq] at h
    rw [← h.1]
    exact writeChunksF_error k slices fa st2 0 hw
  · simp only [hw] at h
    have hf1 : f1.err = fa.err := writeChunksF_ok_err k slices fa st2 0 hw
    rcases hs1 : f1.step with e2 | f2
    · simp only [hs1, Except.error.injEq, Prod.mk.injEq] at h
      rw [← h.1, Fault.step_err_of_error hs1]
      exact hf1
    · simp only [hs1] at h
      rcases hs2 : f2.step with e3 | f3
      · simp only [hs2, Except.error.injEq, Prod.mk.injEq] at h
        rw [← h.1, Fault.step_err_of_error hs2, Fault.step_err_of_ok hs1]
        exact hf1
      · simp only [hs2] at h
        rcases hwi : writeIdxF k f3 (alUpd (alUpd st3 (RKey.meta k) (RVal.metaV meta0))
            (RKey.marker k) (RVal.markerV slices.length (RKey.meta k))) idx [] with
          ⟨e4, stE⟩ | ⟨f4, r6⟩
        · simp only [hwi, Except.error.injEq, Prod.mk.injEq] at h
          rw [← h.1, writeIdxF_error k idx f3 _ [] hwi, Fault.step_err_of_ok hs2,
            Fault.step_err_of_ok hs1]
          exact hf1
        · obtain ⟨st6, acc⟩ := r6
          simp only [hwi] at h
          have hf4 : f4.err = fa.err := by
            rw [writeIdxF_ok_err k idx f3 _ [] hwi, Fault.step_err_of_ok hs2,
              Fault.step_err_of_ok hs1]
            exact hf1
          by_cases hacc : acc.isEmpty
          · simp only [hacc, if_true] at h
            rcases hs4 : f4.step with e5 | f5
            · simp only [hs4, Except.error.injEq, Prod.mk.injEq] at h
              rw [← h.1, Fault.step_err_of_error hs4]
              exact hf4
            · simp only [hs4] at h
              simp at h
          · simp only [Bool.not_eq_true] at hacc
            simp only [hacc, Bool.false_eq_true, if_false] at h
            rcases hs4 : f4.step with e5 | f5
            · simp only [hs4, Except.error.injEq, Prod.mk.injEq] at h
              rw [← h.1, Fault.step_err_of_error hs4]
              exact hf4
            · simp only [hs4] at h
              rcases hs5 : f5.step with e6 | f6
              · simp only [hs5, Except.error.injEq, Prod.mk.injEq] at h
                rw [← h.1, Fault.step_err_of_error hs5, Fault.step_err_of_ok hs4]
                exact hf4
              · simp only [hs5] at h
                simp at h

lemma setCore_error {cfg : Config} {cd : Codec} {fa : Fault} {st0 : EStore} {k : String}
    {payload : String} {ttl : Option Nat} {compress encrypt : Bool}
    {idx : List (String × Option String)} {now : Nat} {owner : String}
    {e : Err} {st' : EStore}
    (h : setCore cfg cd fa st0 k payload ttl compress encrypt idx now owner = .error (e, st')) :
    e = fa.err :=
  setBody_error h

lemma rollback_spec (st : EStore) (k : String) (n : Nat) (now : Nat) :
    alGet (rollback st k n now) (RKey.marker k) = none ∧
    alGet (rollback st k n now) (RKey.meta k) = none ∧
    (∀ i, i < n → alGet (rollback st k n now) (RKey.chunk k i) = none) ∧
    ∃ r ∈ journalRecs (rollback st k n now), r.kind = JKind.setRollback ∧ r.key = k := by
  unfold rollback
  refine ⟨?_, ?_, fun i hi => ?_, ?_⟩
  · rw [journalAppend_get_other _ _ (fun h => RKey.noConfusion h)]
    exact alGet_del_self _ _
  · rw [journalAppend_get_other _ _ (fun h => RKey.noConfusion h),
      alGet_del_ne _ (fun h => RKey.noConfusion h)]
    exact alGet_del_self _ _
  · rw [journalAppend_get_other _ _ (fun h => RKey.noConfusion h),
      alGet_del_ne _ (fun h => RKey.noConfusion h),
      alGet_del_ne _ (fun h => RKey.noConfusion h)]
    exact delChunks_get_lt st k n i hi
  · rw [journalRecs_append]
    exact ⟨⟨.setRollback, k, now, none⟩, by simp, rfl, rfl⟩

lemma setF_error {cfg : Config} {cd : Codec} {fa : Fault} {st0 : EStore} {k : String}
    {payload : String} {ttl : Option Nat} {compress encrypt : Bool}
    {idx : List (String × Option String)} {now : Nat} {owner : String}
    {e : Err} {st' : EStore}
    (h : setF cfg cd fa st0 k payload ttl compress encrypt idx now owner = .error (e, st')) :
    e = fa.err ∧ ∃ stf, st' = rollback stf k
      (chunksOf cfg.shardSize (encode cd compress encrypt payload).data).length now := by
  unfold setF at h
  rcases hc : setCore cfg cd fa st0 k payload ttl compress encrypt idx now owner with
    ⟨e1, stf⟩ | stOk
  · simp only [hc, Except.error.injEq, Prod.mk.injEq] at h
    obtain ⟨h1, h2⟩ := h
    refine ⟨h1 ▸ setCore_error hc, stf, h2.symm⟩
  · simp only [hc] at h
    simp at h

/-! ### remove clears the item (spec §4.11.3) -/

lemma removeOp_absent {st : EStore} {k : String} {m : Meta} (now : Nat) (owner : String)
    (hmeta : alGet st (RKey.meta k) = some (RVal.metaV m)) :
    (removeOp st k now owner).1 = true ∧
    alGet (removeOp st k now owner).2 (RKey.marker k) = none ∧
    alGet (removeOp st k now owner).2 (RKey.meta k) = none ∧
    ∀ i, i < m.chunks → alGet (removeOp st k now owner).2 (RKey.chunk k i) = none := by
  have hrem : removeOp st k now owner = (true, release (journalAppend (idxCleanup k (alDel (alDel
      (delChunks ((acquire owner now 8 (journalAppend st ⟨.removeBegin, k, now, none⟩)).2) k
        m.chunks) (RKey.meta k)) (RKey.marker k)) m.indexKeys)
      ⟨.removeEnd, k, now, none⟩) owner) := by
    unfold removeOp
    rw [hmeta]
  rw [hrem]
  refine ⟨rfl, ?_, ?_, fun i hi => ?_⟩
  · rw [release_get_other _ _ (fun h => RKey.noConfusion h),
      journalAppend_get_other _ _ (fun h => RKey.noConfusion h),
      idxCleanup_get_nonindex k _ _ (fun n h => RKey.noConfusion h)]
    exact alGet_del_self _ _
  · rw [release_get_other _ _ (fun h => RKey.noConfusion h),
      journalAppend_get_other _ _ (fun h => RKey.noConfusion h),
      idxCleanup_get_nonindex k _ _ (fun n h => RKey.noConfusion h),
      alGet_del_ne _ (fun h => RKey.noConfusion h)]
    exact alGet_del_self _ _
  · rw [release_get_other _ _ (fun h => RKey.noConfusion h),
      journalAppend_get_other _ _ (fun h => RKey.noConfusion h),
      idxCleanup_get_nonindex k _ _ (fun n h => RKey.noConfusion h),
      alGet_del_ne _ (fun h => RKey.noConfusion h),
      alGet_del_ne _ (fun h => RKey.noConfusion h)]
    exact delChunks_get_lt _ k m.chunks i hi

/-- An expired read returns `none` and purges the marker, the metadata
and the chunks the metadata records (spec §4.11.2 step 3). -/
lemma getOp_expired_of_inv {cd : Codec} {st : EStore} {k payload : String}
    {compress encrypt : Bool} {texp : Nat} {slices : List String} {now : Nat} {owner : String}
    (hinv : ItemInv cd st k payload compress encrypt (some texp) slices)
    (hpast : texp < now) :
    (getOp cd st k now owner).1 = none ∧
    alGet (getOp cd st k now owner).2 (RKey.marker k) = none ∧
    alGet (getOp cd st k now owner).2 (RKey.meta k) = none ∧
    ∀ i, i < slices.length → alGet (getOp cd st k now owner).2 (RKey.chunk k i) = none := by
  obtain ⟨⟨n, ref, hmark⟩, ⟨m, hmeta, hchunks, hcomp, henc, hexp⟩, hch, hdec⟩ := hinv
  have hexpired : expired m now = true := by
    unfold expired
    rw [hexp]
    simp [hpast]
  have hget : getOp cd st k now owner = (none, (removeOp st k now owner).2) := by
    unfold getOp
    rw [hmark, hmeta]
    show (if expired m now = true then ((none : Option String), (removeOp st k now owner).2)
      else match readChunks st k m.chunks with
        | none => ((none : Option String), st)
        | some ss =>
          (some (decode cd m.compressed m.encrypted (concatStrs ss)),
            alUpd st (RKey.meta k) (RVal.metaV { m with lru := now, lfu := m.lfu + 1 }))) = _
    rw [hexpired, if_pos rfl]
  rw [hget]
  obtain ⟨-, h1, h2, h3⟩ := removeOp_absent now owner hmeta
  exact ⟨rfl, h1, h2, fun i hi => h3 i (by omega)⟩

/-! ### A failure-free set establishes the item -/

lemma strMk_data (s : String) : String.mk s.data = s := rfl

lemma concatStrs_encSlices {cfg : Config} {cd : Codec} {compress encrypt : Bool}
    {payload : String} (hshard : 1 ≤ cfg.shardSize) :
    concatStrs (encSlices cfg cd compress encrypt payload) =
      encode cd compress encrypt payload := by
  unfold concatStrs encSlices
  rw [List.map_map]
  rw [show String.data ∘ String.mk = id from rfl, List.map_id]
  show String.mk (chunksOfAux cfg.shardSize (encode cd compress encrypt payload).data.length
    (encode cd compress encrypt payload).data).flatten = _
  rw [chunksOfAux_flatten hshard _ _ le_rfl]

lemma metaFinal_fields (cfg : Config) (cd : Codec) (payload : String) (ttl : Option Nat)
    (compress encrypt : Bool) (idx : List (String × Option String)) (now : Nat) :
    (metaFinal cfg cd payload ttl compress encrypt idx now).chunks =
      (encSlices cfg cd compress encrypt payload).length ∧
    (metaFinal cfg cd payload ttl compress encrypt idx now).compressed = compress ∧
    (metaFinal cfg cd payload ttl compress encrypt idx now).encrypted = encrypt ∧
    (metaFinal cfg cd payload ttl compress encrypt idx now).expiresAt = ttl.map (now + ·) := by
  unfold metaFinal metaSnap mkMeta
  split <;> exact ⟨rfl, rfl, rfl, rfl⟩

/-- After a failure-free `set` (and its lock release) the item is
present with the written chunks. -/
lemma relRun_itemInv (cfg : Config) (cd : Codec) (st0 : EStore) (k payload : String)
    (ttl : Option Nat) (compress encrypt : Bool) (idx : List (String × Option String))
    (now : Nat) (owner : String) (hshard : 1 ≤ cfg.shardSize) (hcodec : cd.Reversible) :
    ItemInv cd (release (setCoreRun cfg cd st0 k payload ttl compress encrypt idx now owner) owner)
      k payload compress encrypt (ttl.map (now + ·))
      (encSlices cfg cd compress encrypt payload) := by
  obtain ⟨hc1, hc2, hc3, hc4⟩ := metaFinal_fields cfg cd payload ttl compress encrypt idx now
  refine ⟨?_, ?_, fun i hi => ?_, ?_⟩
  · rw [release_get_other _ _ (fun h => RKey.noConfusion h),
      setCoreRun_get_pres cfg cd st0 k payload ttl compress encrypt idx now owner
        (fun n h => RKey.noConfusion h) (fun h => RKey.noConfusion h)
        (fun h => RKey.noConfusion h),
      stageMark_marker]
    exact ⟨_, _, rfl⟩
  · rw [release_get_other _ _ (fun h => RKey.noConfusion h), setCoreRun_meta]
    exact ⟨metaFinal cfg cd payload ttl compress encrypt idx now, rfl, hc1, hc2, hc3, hc4⟩
  · rw [release_get_other _ _ (fun h => RKey.noConfusion h),
      setCoreRun_get_pres cfg cd st0 k payload ttl compress encrypt idx now owner
        (fun n h => RKey.noConfusion h) (fun h => RKey.noConfusion h)
        (fun h => RKey.noConfusion h),
      stageMark_chunk cfg cd st0 k payload ttl compress encrypt now owner i hi]
  · rw [concatStrs_encSlices hshard]
    exact decode_encode hcodec compress encrypt payload

/-- A failure-free `set` that needs no eviction succeeds and ends in
`release (setCoreRun …)`. -/
lemma setF_ok (cfg : Config) (cd : Codec) (e : Err) (st0 : EStore) (k payload : String)
    (ttl : Option Nat) (compress encrypt : Bool) (idx : List (String × Option String))
    (now : Nat) (owner : String)
    (hq : estimateSize cfg (setCoreRun cfg cd st0 k payload ttl compress encrypt idx now owner) ≤
      cfg.softLimit) :
    setF cfg cd ⟨none, e⟩ st0 k payload ttl compress encrypt idx now owner =
      .ok (release (setCoreRun cfg cd st0 k payload ttl compress encrypt idx now owner) owner) := by
  unfold setF
  rw [setCore_none_eq]
  show Except.ok (release (maybeEvict cfg
    (setCoreRun cfg cd st0 k payload ttl compress encrypt idx now owner) now owner).1 owner) = _
  rw [maybeEvict_noop hq]

lemma estAfterCore_eq (cfg : Config) (cd : Codec) (st0 : EStore) (k payload : String)
    (ttl : Option Nat) (compress encrypt : Bool) (idx : List (String × Option String))
    (now : Nat) (owner : String) :
    estAfterCore cfg cd st0 k payload ttl compress encrypt idx now owner =
      estimateSize cfg (setCoreRun cfg cd st0 k payload ttl compress encrypt idx now owner) := by
  unfold estAfterCore
  rw [setCore_none_eq]

/-! ### Claims C1-C3 -/

/-- C1: for every serializable value V (a value with a parse inverse of
its stringification), every user key k, and every combination of the
compress and encrypt options, a successful `set(k, V)` followed by
`get(k)` returns a value structurally equal to V; and the encode
pipeline (JSON-stringify → compress → encrypt) composed with the decode
pipeline in reverse order is the identity on serialized values.  The
set must not overflow the quota (`hq`), since eviction could otherwise
reclaim the key itself. -/
theorem claim_C1_roundtrip {α : Type} (ser : α → String) (de : String → Option α)
    (cfg : Config) (cd : Codec) (st0 : EStore) (k : String) (v : α)
    (compress encrypt : Bool) (t0 t1 : Nat) (owner reader : String)
    (hser : de (ser v) = some v) (hcodec : cd.Reversible) (hshard : 1 ≤ cfg.shardSize)
    (hq : estAfterCore cfg cd st0 k (ser v) none compress encrypt [] t0 owner ≤ cfg.softLimit) :
    (∃ st1, setValue ser cfg cd st0 k v none compress encrypt [] t0 owner = .ok st1 ∧
      (getValue de cd st1 k t1 reader).1 = some (Sum.inl v)) ∧
    (∀ s, decode cd compress encrypt (encode cd compress encrypt s) = s) := by
  rw [estAfterCore_eq] at hq
  refine ⟨⟨release (setCoreRun cfg cd st0 k (ser v) none compress encrypt [] t0 owner) owner,
    setF_ok cfg cd Err.storageFull st0 k (ser v) none compress encrypt [] t0 owner hq, ?_⟩,
    fun s => decode_encode hcodec compress encrypt s⟩
  have hinv := relRun_itemInv cfg cd st0 k (ser v) none compress encrypt [] t0 owner hshard hcodec
  have hget := @getOp_of_inv cd
    (release (setCoreRun cfg cd st0 k (ser v) none compress encrypt [] t0 owner) owner)
    k (ser v) compress encrypt none (encSlices cfg cd compress encrypt (ser v)) t1 reader
    hinv (fun t ht => by simp at ht)
  unfold getValue
  have hp : getOp cd (release (setCoreRun cfg cd st0 k (ser v) none compress encrypt [] t0 owner)
      owner) k t1 reader =
      (some (ser v), (getOp cd (release (setCoreRun cfg cd st0 k (ser v) none compress encrypt []
        t0 owner) owner) k t1 reader).2) :=
    Prod.ext hget.1 rfl
  rw [hp]
  show (match de (ser v) with
    | some v' => (some (Sum.inl v'),
        (getOp cd (release (setCoreRun cfg cd st0 k (ser v) none compress encrypt [] t0 owner)
          owner) k t1 reader).2)
    | none => (some (Sum.inr (ser v)),
        (getOp cd (release (setCoreRun cfg cd st0 k (ser v) none compress encrypt [] t0 owner)
          owner) k t1 reader).2)).1 = some (Sum.inl v)
  rw [hser]

/-- The degenerate (identity) codec instance for concrete witnesses. -/
def idCodec : Codec := ⟨id, id, id, id⟩

lemma idCodec_rev : idCodec.Reversible := ⟨fun _ => rfl, fun _ => rfl⟩

/-- A tiny serializable type for concrete witnesses. -/
def serB : Bool → String := fun b => if b then "T" else "F"

def deB : String → Option Bool :=
  fun s => if s = "T" then some true else if s = "F" then some false else none

/-- A small concrete configuration for witnesses. -/
def cfgW : Config :=
  { shardSize := 2, softLimit := 1000000, lru := true, schemaVersion := 1, pfxLen := 15 }

/-- Witness for C1: a concrete compressed+encrypted round-trip. -/
theorem claim_C1_witness :
    (deB (serB true) = some true ∧ (1 : Nat) ≤ cfgW.shardSize ∧
      estAfterCore cfgW idCodec [] "a" (serB true) none true true [] 10 "me" ≤ cfgW.softLimit) ∧
    ∃ st1, setValue serB cfgW idCodec [] "a" true none true true [] 10 "me" = .ok st1 ∧
      (getValue deB idCodec st1 "a" 11 "rd").1 = some (Sum.inl true) := by
  refine ⟨⟨by decide, by decide, by decide⟩, ?_⟩
  exact (claim_C1_roundtrip serB deB cfgW idCodec [] "a" true true true 10 11 "me" "rd"
    (by decide) idCodec_rev (by decide) (by decide)).1

/-- Counterexample to C2 as stated: a failing overwrite that shrinks
the chunk count rolls back only the chunks it attempted, so a stale
chunk of the previous larger item survives — the post-state is not free
of chunk entries for k.  Here `"a"` first holds `"xyz"` (two chunks at
shard size 2); the overwrite with `"x"` fails at the marker write and
chunk 1 (`"z"`) survives. -/
def c2cSt0 : EStore :=
  match setF cfgW idCodec ⟨none, Err.storageFull⟩ [] "a" "xyz" none false false [] 0 "me" with
  | .ok st => st
  | .error _ => []

def c2cRes : Except (Err × EStore) EStore :=
  setF cfgW idCodec ⟨some 2, Err.storageFull⟩ c2cSt0 "a" "x" none false false [] 10 "me"

def c2cSt : EStore :=
  match c2cRes with
  | .error (_, st) => st
  | .ok st => st

theorem claim_C2_counterexample :
    c2cRes.toOption = none ∧
    alGet c2cSt (RKey.chunk "a" 1) = some (RVal.str "z") := by
  constructor
  · decide
  · decide

/-- C2 (amended): if the BackingStore fails at any point during
`set(k, V)` after journaling SET_BEGIN, then after `set` re-throws the
error, the store contains neither a marker, nor a metadata record, nor
any chunk entry this set attempted to write (indices below the new
chunk count — stale chunks of a previous, larger item may survive as
orphans), the journal contains a SET_ROLLBACK record for k, and the
re-thrown error has the same kind as the original failure. -/
theorem claim_C2_rollback (cfg : Config) (cd : Codec) (fa : Fault) (st0 : EStore)
    (k payload : String) (ttl : Option Nat) (compress encrypt : Bool)
    (idx : List (String × Option String)) (now : Nat) (owner : String)
    (e : Err) (st' : EStore)
    (h : setF cfg cd fa st0 k payload ttl compress encrypt idx now owner = .error (e, st')) :
    e = fa.err ∧
    alGet st' (RKey.marker k) = none ∧
    alGet st' (RKey.meta k) = none ∧
    (∀ i, i < (chunksOf cfg.shardSize (encode cd compress encrypt payload).data).length →
      alGet st' (RKey.chunk k i) = none) ∧
    ∃ r ∈ journalRecs st', r.kind = JKind.setRollback ∧ r.key = k := by
  obtain ⟨he, stf, hst⟩ := setF_error h
  subst hst
  obtain ⟨h1, h2, h3, h4⟩ := rollback_spec stf k _ now
  exact ⟨he, h1, h2, h3, h4⟩

def c2wRes : Except (Err × EStore) EStore :=
  setF cfgW idCodec ⟨some 0, Err.cryptoFail⟩ [] "a" "x" none false false [] 5 "me"

def c2wSt : EStore :=
  match c2wRes with
  | .error (_, st) => st
  | .ok st => st

/-- Witness for C2: a concrete run failing at the very first chunk
write, rolled back with the error kind preserved. -/
theorem claim_C2_witness :
    c2wRes = .error (Err.cryptoFail, c2wSt) ∧
    (Err.cryptoFail = (Fault.mk (some 0) Err.cryptoFail).err ∧
      alGet c2wSt (RKey.marker "a") = none ∧
      alGet c2wSt (RKey.meta "a") = none ∧
      (∀ i, i < (chunksOf cfgW.shardSize (encode idCodec false false "x").data).length →
        alGet c2wSt (RKey.chunk "a" i) = none) ∧
      ∃ r ∈ journalRecs c2wSt, r.kind = JKind.setRollback ∧ r.key = "a") :=
  ⟨by rfl,
    claim_C2_rollback cfgW idCodec ⟨some 0, Err.cryptoFail⟩ [] "a" "x" none false false [] 5 "me"
      Err.cryptoFail c2wSt (by rfl)⟩

/-- Counterexample to C3 as stated: expiry is strict — a read at
exactly `t₀+T` still returns the value, not the default; and after an
expired read only the chunks recorded by the item's metadata are
deleted, so a stale chunk of an earlier larger item survives. -/
def c3cA : EStore :=
  match setF cfgW idCodec ⟨none, Err.storageFull⟩ [] "a" "xyz" none false false [] 0 "me" with
  | .ok st => st
  | .error _ => []

def c3cB : EStore :=
  match setF cfgW idCodec ⟨none, Err.storageFull⟩ c3cA "a" "x" (some 5) false false [] 10 "me" with
  | .ok st => st
  | .error _ => []

theorem claim_C3_counterexample :
    (getOp idCodec c3cB "a" 15 "rd").1 = some "x" ∧
    (getOp idCodec c3cB "a" 16 "rd").1 = none ∧
    alGet (getOp idCodec c3cB "a" 16 "rd").2 (RKey.chunk "a" 1) = some (RVal.str "z") := by
  refine ⟨?_, ?_, ?_⟩ <;> decide

/-- C3 (amended): if `set(k, V, {ttl: T})` completes at wall time t₀,
every `get(k)` at `t ≤ t₀+T` returns V (expiry is strict: at exactly
t₀+T the item is still served), and every `get(k)` at `t > t₀+T`
returns the default and, after the read returns, the marker, the
metadata record and every chunk recorded by the item's metadata are
absent from the store (chunks of an earlier larger item may survive as
orphans).  The two read conjuncts are stated over every store
satisfying the item shape `ItemInv`, which the set establishes and
which every fresh read preserves — so they cover arbitrary chains of
reads after the set. -/
theorem claim_C3_ttl (cfg : Config) (cd : Codec) (st0 : EStore) (k payload : String)
    (T : Nat) (compress encrypt : Bool) (t0 : Nat) (owner : String)
    (hcodec : cd.Reversible) (hshard : 1 ≤ cfg.shardSize)
    (hq : estAfterCore cfg cd st0 k payload (some T) compress encrypt [] t0 owner ≤
      cfg.softLimit) :
    ∃ st1, setF cfg cd ⟨none, Err.storageFull⟩ st0 k payload (some T) compress encrypt [] t0 owner
        = .ok st1 ∧
      ItemInv cd st1 k payload compress encrypt (some (t0 + T))
        (encSlices cfg cd compress encrypt payload) ∧
      (∀ (st : EStore) (t : Nat) (reader : String),
        ItemInv cd st k payload compress encrypt (some (t0 + T))
          (encSlices cfg cd compress encrypt payload) →
        t ≤ t0 + T →
        (getOp cd st k t reader).1 = some payload ∧
        ItemInv cd (getOp cd st k t reader).2 k payload compress encrypt (some (t0 + T))
          (encSlices cfg cd compress encrypt payload)) ∧
      (∀ (st : EStore) (t : Nat) (reader : String),
        ItemInv cd st k payload compress encrypt (some (t0 + T))
          (encSlices cfg cd compress encrypt payload) →
        t0 + T < t →
        (getOp cd st k t reader).1 = none ∧
        alGet (getOp cd st k t reader).2 (RKey.marker k) = none ∧
        alGet (getOp cd st k t reader).2 (RKey.meta k) = none ∧
        ∀ i, i < (encSlices cfg cd compress encrypt payload).length →
          alGet (getOp cd st k t reader).2 (RKey.chunk k i) = none) := by
  rw [estAfterCore_eq] at hq
  refine ⟨_,
    setF_ok cfg cd Err.storageFull st0 k payload (some T) compress encrypt [] t0 owner hq,
    relRun_itemInv cfg cd st0 k payload (some T) compress encrypt [] t0 owner hshard hcodec,
    ?_, ?_⟩
  · intro st t reader hinv ht
    exact getOp_of_inv hinv (fun t' ht' => by
      injection ht' with h2
      omega)
  · intro st t reader hinv ht
    exact getOp_expired_of_inv hinv (by omega)

/-- Witness for C3: the theorem applied at a concrete TTL write. -/
theorem claim_C3_witness :
    ((1 : Nat) ≤ cfgW.shardSize ∧
      estAfterCore cfgW idCodec [] "a" "pl" (some 5) false false [] 10 "me" ≤ cfgW.softLimit) ∧
    ∃ st1, setF cfgW idCodec ⟨none, Err.storageFull⟩ [] "a" "pl" (some 5) false false [] 10 "me"
      = .ok st1 := by
  refine ⟨⟨by decide, by decide⟩, ?_⟩
  obtain ⟨st1, h1, -⟩ := claim_C3_ttl cfgW idCodec [] "a" "pl" 5 false false 10 "me"
    idCodec_rev (by decide) (by decide)
  exact ⟨st1, h1⟩

/-! ### Claim C4: index consistency -/

lemma queryIndex_congr {st1 st2 : EStore} (n : String)
    (h : alGet st1 (RKey.index n) = alGet st2 (RKey.index n)) (v : String) :
    queryIndex st1 n v = queryIndex st2 n v := by
  unfold queryIndex indexBuckets
  rw [h]

lemma queryIndex_release (st : EStore) (owner : String) (n v : String) :
    queryIndex (release st owner) n v = queryIndex st n v :=
  queryIndex_congr n (release_get_other st owner (fun h => RKey.noConfusion h)) v

lemma queryIndex_journalAppend (st : EStore) (r : JRec) (n v : String) :
    queryIndex (journalAppend st r) n v = queryIndex st n v :=
  queryIndex_upd_nonindex st _ (fun _ h => RKey.noConfusion h) n v

lemma idxCleanup_not_mem (userKey : String) :
    ∀ (iks : List String) (st : EStore) (n v : String),
      userKey ∉ queryIndex st n v → userKey ∉ queryIndex (idxCleanup userKey st iks) n v := by
  intro iks
  induction iks with
  | nil => intro st n v h; exact h
  | cons ik rest ih =>
    intro st n v h
    show userKey ∉ queryIndex (idxCleanup userKey (indexRemove st (splitFirstColon ik).1
      (splitFirstColon ik).2 userKey) rest) n v
    apply ih
    intro hmem
    rw [queryIndex_remove] at hmem
    exact h hmem.1

lemma idxCleanup_removes (userKey : String) :
    ∀ (iks : List String) (st : EStore) (n v : String),
      (n ++ ":" ++ v) ∈ iks → ':' ∉ n.data →
      userKey ∉ queryIndex (idxCleanup userKey st iks) n v := by
  intro iks
  induction iks with
  | nil =>
    intro st n v hm _
    simp at hm
  | cons ik rest ih =>
    intro st n v hm hc
    rcases List.mem_cons.mp hm with he | hm2
    · show userKey ∉ queryIndex (idxCleanup userKey (indexRemove st (splitFirstColon ik).1
        (splitFirstColon ik).2 userKey) rest) n v
      rw [← he, splitFirstColon_entry hc]
      apply idxCleanup_not_mem
      intro hmem
      rw [queryIndex_remove] at hmem
      exact hmem.2 ⟨rfl, rfl, rfl⟩
    · show userKey ∉ queryIndex (idxCleanup userKey (indexRemove st (splitFirstColon ik).1
        (splitFirstColon ik).2 userKey) rest) n v
      exact ih _ n v hm2 hc

/-- `remove` clears the key from every bucket, provided every occurrence
of the key in an index is covered by the metadata's `indexKeys` (with
colon-free index names, so the first-colon split recovers the bucket). -/
lemma removeOp_index_clean {st : EStore} {k : String} (now : Nat) (owner : String)
    (hcov : ∀ n v, k ∈ queryIndex st n v →
      ∃ m, alGet st (RKey.meta k) = some (RVal.metaV m) ∧
        (n ++ ":" ++ v) ∈ m.indexKeys ∧ ':' ∉ n.data) :
    ∀ n v, k ∉ queryIndex (removeOp st k now owner).2 n v := by
  intro n v
  by_cases hk : k ∈ queryIndex st n v
  · obtain ⟨m, hm, hentry, hcolon⟩ := hcov n v hk
    have hr : removeOp st k now owner = (true, release (journalAppend (idxCleanup k (alDel (alDel
        (delChunks ((acquire owner now 8 (journalAppend st ⟨.removeBegin, k, now, none⟩)).2) k
          m.chunks) (RKey.meta k)) (RKey.marker k)) m.indexKeys)
        ⟨.removeEnd, k, now, none⟩) owner) := by
      unfold removeOp
      rw [hm]
    rw [hr]
    intro hmem
    rw [queryIndex_release, queryIndex_journalAppend] at hmem
    exact idxCleanup_removes k m.indexKeys _ n v hentry hcolon hmem
  · by_cases hex : ∃ m, alGet st (RKey.meta k) = some (RVal.metaV m)
    · obtain ⟨m, hmeta⟩ := hex
      have hr : removeOp st k now owner = (true, release (journalAppend (idxCleanup k (alDel
          (alDel (delChunks ((acquire owner now 8
            (journalAppend st ⟨.removeBegin, k, now, none⟩)).2) k m.chunks) (RKey.meta k))
          (RKey.marker k)) m.indexKeys) ⟨.removeEnd, k, now, none⟩) owner) := by
        unfold removeOp
        rw [hmeta]
      rw [hr]
      intro hmem
      rw [queryIndex_release, queryIndex_journalAppend] at hmem
      have hpres : queryIndex (alDel (alDel (delChunks ((acquire owner now 8
          (journalAppend st ⟨.removeBegin, k, now, none⟩)).2) k m.chunks) (RKey.meta k))
          (RKey.marker k)) n v = queryIndex st n v := by
        rw [queryIndex_del_nonindex _ (fun _ h => RKey.noConfusion h),
          queryIndex_del_nonindex _ (fun _ h => RKey.noConfusion h),
          queryIndex_congr n (delChunks_get_other _ k m.chunks
            (fun i _ h => RKey.noConfusion h)) v,
          queryIndex_congr n (acquire_get_other owner now 8 _
            (fun h => RKey.noConfusion h)) v,
          queryIndex_journalAppend]
      exact idxCleanup_not_mem k m.indexKeys _ n v (by rw [hpres]; exact hk) hmem
    · have hr : removeOp st k now owner = (false, alDel st (RKey.marker k)) := by
        unfold removeOp
        rcases hm : alGet st (RKey.meta k) with _ | val
        · rfl
        · cases val <;> try rfl
          exact absurd hm (fun he => hex ⟨_, he⟩)
      rw [hr]
      intro hmem
      rw [queryIndex_del_nonindex st (fun _ h => RKey.noConfusion h)] at hmem
      exact hk hmem

/-- C4 (amended): after every successful `set(k, V, {indexes: [{name,
field}]})` where `V[field]` is defined (with its stringified value fv),
`queryIndex(name, fv)` contains k and the metadata's `indexKeys` records
the pair; and after every successful `remove(k)` whose pre-state
satisfies the coverage invariant — every user-key occurrence in an index
appears in that item's metadata `indexKeys`, with colon-free index names
— no index bucket contains k.  (For an index name containing a colon the
first-colon split mis-parses the entry and the key can survive in that
bucket, see the counterexample.) -/
theorem claim_C4_index :
    (∀ (cfg : Config) (cd : Codec) (st0 : EStore) (k payload : String) (ttl : Option Nat)
      (compress encrypt : Bool) (nm fv : String) (now : Nat) (owner : String),
      estAfterCore cfg cd st0 k payload ttl compress encrypt [(nm, some fv)] now owner ≤
        cfg.softLimit →
      ∃ st1, setF cfg cd ⟨none, Err.storageFull⟩ st0 k payload ttl compress encrypt
          [(nm, some fv)] now owner = .ok st1 ∧
        k ∈ queryIndex st1 nm fv ∧
        ∃ m, alGet st1 (RKey.meta k) = some (RVal.metaV m) ∧
          (nm ++ ":" ++ fv) ∈ m.indexKeys) ∧
    (∀ (st : EStore) (k : String) (now : Nat) (owner : String),
      (∀ n v, k ∈ queryIndex st n v →
        ∃ m, alGet st (RKey.meta k) = some (RVal.metaV m) ∧
          (n ++ ":" ++ v) ∈ m.indexKeys ∧ ':' ∉ n.data) →
      ∀ n v, k ∉ queryIndex (removeOp st k now owner).2 n v) := by
  constructor
  · intro cfg cd st0 k payload ttl compress encrypt nm fv now owner hq
    rw [estAfterCore_eq] at hq
    refine ⟨release (setCoreRun cfg cd st0 k payload ttl compress encrypt
        [(nm, some fv)] now owner) owner,
      setF_ok cfg cd Err.storageFull st0 k payload ttl compress encrypt
        [(nm, some fv)] now owner hq, ?_, ?_⟩
    · rw [queryIndex_release]
      exact setCoreRun_query_single cfg cd st0 k payload ttl compress encrypt now owner nm fv
    · rw [release_get_other _ _ (fun h => RKey.noConfusion h), setCoreRun_meta]
      refine ⟨metaFinal cfg cd payload ttl compress encrypt [(nm, some fv)] now, rfl, ?_⟩
      show (nm ++ ":" ++ fv) ∈ (metaFinal cfg cd payload ttl compress encrypt
        [(nm, some fv)] now).indexKeys
      unfold metaFinal
      rw [if_neg (by simp [idxAcc])]
      simp [idxAcc]
  · intro st k now owner hcov
    exact removeOp_index_clean now owner hcov

/-- Counterexample to C4 as stated: an index name containing a colon.
The `indexKeys` entry `"a:b:v"` splits at the first colon into
`("a", "b:v")`, so removal cleans the wrong bucket and the key survives
in index `"a:b"`. -/
def c4cSt : EStore :=
  match setF cfgW idCodec ⟨none, Err.storageFull⟩ [] "u" "p" none false false
    [("a:b", some "v")] 0 "me" with
  | .ok st => st
  | .error _ => []

theorem claim_C4_counterexample :
    (removeOp c4cSt "u" 1 "me").1 = true ∧
    "u" ∈ queryIndex (removeOp c4cSt "u" 1 "me").2 "a:b" "v" := by
  constructor
  · decide
  · decide

/-- Witness for C4: a concrete indexed write is queryable. -/
theorem claim_C4_witness :
    (estAfterCore cfgW idCodec [] "u" "p" none false false [("role", some "admin")] 3 "me" ≤
      cfgW.softLimit) ∧
    ∃ st1, setF cfgW idCodec ⟨none, Err.storageFull⟩ [] "u" "p" none false false
        [("role", some "admin")] 3 "me" = .ok st1 ∧
      "u" ∈ queryIndex st1 "role" "admin" := by
  refine ⟨by decide, ?_⟩
  obtain ⟨st1, h1, h2, -⟩ := claim_C4_index.1 cfgW idCodec [] "u" "p" none false false
    "role" "admin" 3 "me" (by decide)
  exact ⟨st1, h1, h2⟩

/-! ### Claim C6: the lock -/

/-- C6: lock acquisition never throws — it is a total function into
`Bool × EStore`, and for every attempt count, if the lock is validly
held by another owner (so no attempt can succeed), `acquire` returns
`false` with the store unchanged, never an error; the facade operation
proceeds regardless (a `set` on any store, locked or not, still
succeeds and writes the marker); and `release` deletes the lock record
only when its `ownerId` still equals the caller's (spec §4.6, §7). -/
theorem claim_C6_lock :
    (∀ (st : EStore) (o owner : String) (e now : Nat) (attempts : Nat),
      o ≠ owner → ¬ e < now → alGet st RKey.lock = some (RVal.lockV o e) →
      acquire owner now attempts st = (false, st)) ∧
    (∀ (cfg : Config) (cd : Codec) (st0 : EStore) (k payload : String) (ttl : Option Nat)
      (compress encrypt : Bool) (now : Nat) (owner : String),
      estimateSize cfg (setCoreRun cfg cd st0 k payload ttl compress encrypt [] now owner) ≤
        cfg.softLimit →
      ∃ st1, setF cfg cd ⟨none, Err.storageFull⟩ st0 k payload ttl compress encrypt [] now owner
          = .ok st1 ∧
        alGet st1 (RKey.marker k) =
          some (RVal.markerV (encSlices cfg cd compress encrypt payload).length (RKey.meta k))) ∧
    (∀ (st : EStore) (o owner : String) (e : Nat),
      alGet st RKey.lock = some (RVal.lockV o e) →
      (o ≠ owner → release st owner = st) ∧
      (o = owner → alGet (release st owner) RKey.lock = none)) := by
  refine ⟨?_, ?_, ?_⟩
  · intro st o owner e now attempts ho he hl
    exact acquire_foreign ho he attempts st hl
  · intro cfg cd st0 k payload ttl compress encrypt now owner hq
    refine ⟨release (setCoreRun cfg cd st0 k payload ttl compress encrypt [] now owner) owner,
      setF_ok cfg cd Err.storageFull st0 k payload ttl compress encrypt [] now owner hq, ?_⟩
    rw [release_get_other _ _ (fun h => RKey.noConfusion h),
      setCoreRun_get_pres cfg cd st0 k payload ttl compress encrypt [] now owner
        (fun _ h => RKey.noConfusion h) (fun h => RKey.noConfusion h)
        (fun h => RKey.noConfusion h),
      stageMark_marker]
  · intro st o owner e hl
    exact ⟨fun ho => release_foreign owner hl ho, fun ho => release_own owner hl ho⟩

/-- Witness for C6: a foreign, unexpired lock defeats every acquisition
attempt without an error, and a `set` against that locked store still
succeeds and writes the marker. -/
theorem claim_C6_witness :
    (("other" ≠ "me" ∧ ¬ (100 : Nat) < 50 ∧
        alGet [(RKey.lock, RVal.lockV "other" 100)] RKey.lock =
          some (RVal.lockV "other" 100)) ∧
      acquire "me" 50 8 [(RKey.lock, RVal.lockV "other" 100)] =
        (false, [(RKey.lock, RVal.lockV "other" 100)])) ∧
    ∃ st1, setF cfgW idCodec ⟨none, Err.storageFull⟩ [(RKey.lock, RVal.lockV "other" 100)]
        "a" "x" none false false [] 50 "me" = .ok st1 ∧
      alGet st1 (RKey.marker "a") =
        some (RVal.markerV (encSlices cfgW idCodec false false "x").length (RKey.meta "a")) := by
  refine ⟨⟨⟨by decide, by decide, by decide⟩, ?_⟩, ?_⟩
  · exact claim_C6_lock.1 [(RKey.lock, RVal.lockV "other" 100)] "other" "me" 100 50 8
      (by decide) (by decide) (by decide)
  · exact claim_C6_lock.2.1 cfgW idCodec [(RKey.lock, RVal.lockV "other" 100)] "a" "x"
      none false false 50 "me" (by decide)

/-! ### Claim C7: eviction -/

lemma pickVictim_none (cfg : Config) :
    ∀ st : EStore, pickVictim cfg st = none → evCands st = [] := by
  intro st
  induction st with
  | nil => intro _; rfl
  | cons entry rest ih =>
    intro h
    rcases hc : candOf entry with _ | c
    · have heq2 : evCands (entry :: rest) = evCands rest := by
        show (match candOf entry with | none => evCands rest | some c => c :: evCands rest) = _
        rw [hc]
      have heq : pickVictim cfg (entry :: rest) = pickVictim cfg rest := by
        show (match candOf entry with
          | none => pickVictim cfg rest
          | some (k, m) =>
            match pickVictim cfg rest with
            | none => some (k, m)
            | some (k', m') =>
              if cfg.evMeasure m' < cfg.evMeasure m then some (k', m') else some (k, m)) = _
        rw [hc]
      rw [heq2]
      rw [heq] at h
      exact ih h
    · exfalso
      obtain ⟨k, m⟩ := c
      have heq : pickVictim cfg (entry :: rest) = (match pickVictim cfg rest with
          | none => some (k, m)
          | some (k', m') =>
            if cfg.evMeasure m' < cfg.evMeasure m then some (k', m') else some (k, m)) := by
        show (match candOf entry with
          | none => pickVictim cfg rest
          | some (k, m) =>
            match pickVictim cfg rest with
            | none => some (k, m)
            | some (k', m') =>
              if cfg.evMeasure m' < cfg.evMeasure m then some (k', m') else some (k, m)) = _
        rw [hc]
      rw [heq] at h
      rcases hp : pickVictim cfg rest with _ | ⟨k', m'⟩
      · rw [hp] at h
        simp at h
      · rw [hp] at h
        by_cases hlt : cfg.evMeasure m' < cfg.evMeasure m <;> simp [hlt] at h

lemma pickVictim_spec (cfg : Config) : ∀ (st : EStore) (k : String) (m : Meta),
    pickVictim cfg st = some (k, m) →
    ∃ l1 l2, evCands st = l1 ++ (k, m) :: l2 ∧
      (∀ y ∈ l1, cfg.evMeasure m < cfg.evMeasure y.2) ∧
      (∀ y ∈ l2, cfg.evMeasure m ≤ cfg.evMeasure y.2) := by
  intro st
  induction st with
  | nil =>
    intro k m h
    simp [pickVictim] at h
  | cons entry rest ih =>
    intro k m h
    rcases hc : candOf entry with _ | c
    · have heq : pickVictim cfg (entry :: rest) = pickVictim cfg rest := by
        show (match candOf entry with
          | none => pickVictim cfg rest
          | some (k, m) =>
            match pickVictim cfg rest with
            | none => some (k, m)
            | some (k', m') =>
              if cfg.evMeasure m' < cfg.evMeasure m then some (k', m') else some (k, m)) = _
        rw [hc]
      have heq2 : evCands (entry :: rest) = evCands rest := by
        show (match candOf entry with | none => evCands rest | some c => c :: evCands rest) = _
        rw [hc]
      rw [heq] at h
      rw [heq2]
      exact ih k m h
    · obtain ⟨k0, m0⟩ := c
      have heq : pickVictim cfg (entry :: rest) = (match pickVictim cfg rest with
          | none => some (k0, m0)
          | some (k', m') =>
            if cfg.evMeasure m' < cfg.evMeasure m0 then some (k', m') else some (k0, m0)) := by
        show (match candOf entry with
          | none => pickVictim cfg rest
          | some (k, m) =>
            match pickVictim cfg rest with
            | none => some (k, m)
            | some (k', m') =>
              if cfg.evMeasure m' < cfg.evMeasure m then some (k', m') else some (k, m)) = _
        rw [hc]
      have heq2 : evCands (entry :: rest) = (k0, m0) :: evCands rest := by
        show (match candOf entry with | none => evCands rest | some c => c :: evCands rest) = _
        rw [hc]
      rw [heq] at h
      rw [heq2]
      rcases hp : pickVictim cfg rest with _ | ⟨k1, m1⟩
      · rw [hp] at h
        have h' : some (k0, m0) = some (k, m) := h
        injection h' with h''
        injection h'' with hk hm
        subst hk
        subst hm
        refine ⟨[], evCands rest, by simp, by simp, ?_⟩
        rw [pickVictim_none cfg rest hp]
        simp
      · rw [hp] at h
        have h' : (if cfg.evMeasure m1 < cfg.evMeasure m0 then some (k1, m1)
            else some (k0, m0)) = some (k, m) := h
        by_cases hlt : cfg.evMeasure m1 < cfg.evMeasure m0
        · rw [if_pos hlt] at h'
          have hk : k = k1 := by
            simp only [Option.some.injEq, Prod.mk.injEq] at h'
            exact h'.1.symm
          have hm : m = m1 := by
            simp only [Option.some.injEq, Prod.mk.injEq] at h'
            exact h'.2.symm
          subst hk
          subst hm
          obtain ⟨l1, l2, hdec, hl1, hl2⟩ := ih k m hp
          refine ⟨(k0, m0) :: l1, l2, by simp [hdec], ?_, hl2⟩
          intro y hy
          rcases List.mem_cons.mp hy with he | hy2
          · rw [he]
            exact hlt
          · exact hl1 y hy2
        · rw [if_neg hlt] at h'
          have hk : k = k0 := by
            simp only [Option.some.injEq, Prod.mk.injEq] at h'
            exact h'.1.symm
          have hm : m = m0 := by
            simp only [Option.some.injEq, Prod.mk.injEq] at h'
            exact h'.2.symm
          subst hk
          subst hm
          obtain ⟨l1, l2, hdec, hl1, hl2⟩ := ih k1 m1 hp
          refine ⟨[], evCands rest, by simp, by simp, ?_⟩
          intro y hy
          rw [hdec] at hy
          have hle : cfg.evMeasure m ≤ cfg.evMeasure m1 := not_lt.mp hlt
          rcases List.mem_append.mp hy with hy1 | hy2
          · exact le_trans hle (le_of_lt (hl1 y hy1))
          · rcases List.mem_cons.mp hy2 with he | hy3
            · rw [he]
              exact hle
            · exact le_trans hle (hl2 y hy3)

lemma evictLoop_count (cfg : Config) (now : Nat) (owner : String) :
    ∀ (fuel : Nat) (st : EStore), (evictLoop cfg now owner fuel st).2 ≤ fuel := by
  intro fuel
  induction fuel with
  | zero => intro st; exact Nat.le_refl 0
  | succ fuel ih =>
    intro st
    show (if estimateSize cfg st ≤ cfg.softLimit then (st, 0)
      else match pickVictim cfg st with
        | none => (st, 0)
        | some (k, _) =>
          ((evictLoop cfg now owner fuel (removeOp st k now owner).2).1,
            (evictLoop cfg now owner fuel (removeOp st k now owner).2).2 + 1)).2 ≤ fuel + 1
    by_cases hle : estimateSize cfg st ≤ cfg.softLimit
    · rw [if_pos hle]
      exact Nat.zero_le _
    · rw [if_neg hle]
      rcases hp : pickVictim cfg st with _ | ⟨k, m⟩
      · exact Nat.zero_le _
      · show (evictLoop cfg now owner fuel (removeOp st k now owner).2).2 + 1 ≤ fuel + 1
        exact Nat.succ_le_succ (ih _)

/-- C7: `maybeEvict`, invoked at the end of every successful `set`,
estimates the namespace size as the sum of key-length plus value-length
over all prefixed entries and, while that size exceeds the soft limit,
removes exactly one victim per iteration for at most 1000 iterations;
under the LRU policy the victim chosen each iteration is the metadata
entry with the smallest `lru` timestamp, ties broken by the first
candidate in store traversal order (spec §4.8). -/
theorem claim_C7_eviction :
    (∀ (cfg : Config) (st : EStore), estimateSize cfg st =
      (st.map (fun entry => RKey.renderLen cfg.pfxLen entry.1 + RVal.strLen entry.2)).sum) ∧
    (∀ (cfg : Config) (cd : Codec) (e : Err) (st0 : EStore) (k payload : String)
      (ttl : Option Nat) (compress encrypt : Bool) (idx : List (String × Option String))
      (now : Nat) (owner : String),
      setF cfg cd ⟨none, e⟩ st0 k payload ttl compress encrypt idx now owner =
        .ok (release (maybeEvict cfg
          (setCoreRun cfg cd st0 k payload ttl compress encrypt idx now owner) now owner).1
          owner)) ∧
    (∀ (cfg : Config) (st : EStore) (now : Nat) (owner : String),
      estimateSize cfg st ≤ cfg.softLimit → maybeEvict cfg st now owner = (st, 0)) ∧
    (∀ (cfg : Config) (st : EStore) (now : Nat) (owner : String),
      (maybeEvict cfg st now owner).2 ≤ 1000) ∧
    (∀ (cfg : Config) (now : Nat) (owner : String) (fuel : Nat) (st : EStore)
      (k : String) (m : Meta),
      ¬ estimateSize cfg st ≤ cfg.softLimit → pickVictim cfg st = some (k, m) →
      evictLoop cfg now owner (fuel + 1) st =
        ((evictLoop cfg now owner fuel (removeOp st k now owner).2).1,
          (evictLoop cfg now owner fuel (removeOp st k now owner).2).2 + 1)) ∧
    (∀ (cfg : Config) (st : EStore) (k : String) (m : Meta), cfg.lru = true →
      pickVictim cfg st = some (k, m) →
      ∃ l1 l2, evCands st = l1 ++ (k, m) :: l2 ∧
        (∀ y ∈ l1, m.lru < y.2.lru) ∧ (∀ y ∈ l2, m.lru ≤ y.2.lru)) := by
  refine ⟨fun cfg st => rfl, ?_, ?_, ?_, ?_, ?_⟩
  · intro cfg cd e st0 k payload ttl compress encrypt idx now owner
    unfold setF
    rw [setCore_none_eq]
  · intro cfg st now owner h
    exact maybeEvict_noop h
  · intro cfg st now owner
    exact evictLoop_count cfg now owner 1000 st
  · intro cfg now owner fuel st k m h hp
    show (if estimateSize cfg st ≤ cfg.softLimit then (st, 0)
      else match pickVictim cfg st with
        | none => (st, 0)
        | some (k, _) =>
          ((evictLoop cfg now owner fuel (removeOp st k now owner).2).1,
            (evictLoop cfg now owner fuel (removeOp st k now owner).2).2 + 1)) = _
    rw [if_neg h, hp]
  · intro cfg st k m hlru hp
    have := pickVictim_spec cfg st k m hp
    simp only [Config.evMeasure, hlru, if_true] at this
    exact this

/-- Meta record used by the C7 witness. -/
def mW (lru : Nat) : Meta :=
  { created := 0, updated := 0, ttl := none, expiresAt := none, compressed := false,
    encrypted := false, chunks := 0, size := 0, lru := lru, lfu := 0, indexKeys := [],
    schemaVersion := 1 }

/-- Witness for C7: the no-op case below the limit and the LRU victim
of a concrete two-item store. -/
theorem claim_C7_witness :
    (estimateSize cfgW [] ≤ cfgW.softLimit ∧ maybeEvict cfgW [] 0 "me" = ([], 0)) ∧
    (cfgW.lru = true ∧
      pickVictim cfgW [(RKey.meta "a", RVal.metaV (mW 5)), (RKey.meta "b", RVal.metaV (mW 3))] =
        some ("b", mW 3) ∧
      ∃ l1 l2, evCands [(RKey.meta "a", RVal.metaV (mW 5)), (RKey.meta "b", RVal.metaV (mW 3))] =
          l1 ++ ("b", mW 3) :: l2 ∧
        (∀ y ∈ l1, (mW 3).lru < y.2.lru) ∧ (∀ y ∈ l2, (mW 3).lru ≤ y.2.lru)) := by
  refine ⟨⟨by decide, ?_⟩, by decide, by decide, ?_⟩
  · exact claim_C7_eviction.2.2.1 cfgW [] 0 "me" (by decide)
  · exact claim_C7_eviction.2.2.2.2.2 cfgW
      [(RKey.meta "a", RVal.metaV (mW 5)), (RKey.meta "b", RVal.metaV (mW 3))]
      "b" (mW 3) (by decide) (by decide)

end LSM
